import Mathlib

/-!
Verification of the CloudMap-visualisation consumer (`src/consumer/consumer.py`)
against its natural-language specification.

The development shallowly embeds the consumer's state and operations:
* the DynamoDB lock item becomes `LockState` (an optional `LockRecord`),
  and `acquire_lock` / `release_lock` become explicit state transformers
  returning `Except String LockState` (an `Except.error` models a raised
  exception, in which case the store is left unchanged);
* the neo4j database becomes `Graph` (association lists of service and
  instance nodes keyed by their unique names, plus lists of REGISTERED
  and DEP_ON edges), and `merge_s`, `merge_instance`,
  `connect_service_rel_to_service`, `update_neo4j`, `clean_neo4j` become
  functions on `Graph`; neomodel's `connect` is a Cypher MERGE of one
  relationship between two given nodes (add-if-absent, never removing
  other relationships), and `StructuredNode.delete` removes the node and
  all its incident relationships;
* `lambda_handler` becomes `lambda_handler` over an `Event` of message
  records and a `World` (lock plus graph), parameterised by the effectful
  outcome of the reconciliation body so that the failure path of the
  `try`/`except` block is covered.
-/

/-! ## Lock model (`acquire_lock`, `release_lock`) -/

/-- The DynamoDB lock item: `lock_bool` and `version` attributes. -/
structure LockRecord where
  lock_bool : Bool
  version : Nat
deriving DecidableEq, Repr

/-- The lock table holds at most one item under the configured id. -/
abbrev LockState := Option LockRecord

/-- Message of the exception raised by `acquire_lock` when the conditional
update fails (the Python wraps the store error, here kept abstract). -/
def lockConflictMsg : String := "Cannot aquire lock"

/-- Message modelling the store's conditional-check failure that
`release_lock` lets propagate when `lock_bool` is not `true`. -/
def lockNotHeldMsg : String := "ConditionalCheckFailed in release_lock"

/-- The conditional `update_item` of `acquire_lock`, with the version read
beforehand passed explicitly (`readVersion`), so that the compare-and-swap
window between the read and the write is visible: the write succeeds only
if the stored record still has `lock_bool = false` and `version` equal to
the value read, and then sets `lock_bool = true` and
`version = readVersion + 1`.  On a missing item the condition expression
fails. -/
def tryAcquireWrite (st : LockState) (readVersion : Nat) : Except String LockState :=
  match st with
  | none => .error lockConflictMsg
  | some r =>
    if r.lock_bool = false ∧ r.version = readVersion then
      .ok (some ⟨true, readVersion + 1⟩)
    else
      .error lockConflictMsg

/-- `acquire_lock`: `get_item`; if the item is absent (`KeyError`), create
it with `lock_bool = true`, `version = 1` under `attribute_not_exists(id)`
(in the sequential model the item is still absent, so this succeeds);
otherwise read the current version and perform the conditional write. -/
def acquire_lock (st : LockState) : Except String LockState :=
  match st with
  | none => .ok (some ⟨true, 1⟩)
  | some r => tryAcquireWrite (some r) r.version

/-- `release_lock`: conditional `update_item` setting `lock_bool = false`,
guarded by `lock_bool = true`; the `version` attribute is not part of the
update expression.  On a missing item or an unlocked record the
conditional check fails and the exception propagates. -/
def release_lock (st : LockState) : Except String LockState :=
  match st with
  | none => .error lockNotHeldMsg
  | some r =>
    if r.lock_bool then
      .ok (some ⟨false, r.version⟩)
    else
      .error lockNotHeldMsg

/-! ## Snapshot model

The SQS message body holds a `Services` list; each service record has a
`Name`, an `Instances` list of records with an `Id`, and a `Tags` list of
`Key`/`Value` pairs. -/

/-- One `{"Key": ..., "Value": ...}` tag of a service record. -/
structure Tag where
  key : String
  value : String
deriving DecidableEq, Repr

/-- One entry of a service's `Instances` list (only the `Id` is used by
the consumer). -/
structure InstanceRec where
  id : String
deriving DecidableEq, Repr

/-- One entry of the snapshot's `Services` list. -/
structure ServiceRec where
  name : String
  instances : List InstanceRec
  tags : List Tag
deriving DecidableEq, Repr

/-- A snapshot: the parsed `Services` list. -/
abbrev Snapshot := List ServiceRec

/-- The designated relationship tag key (`NEO4J_RELATIONSHIP_TO_SERVICE`). -/
def relTagKey : String := "NEO4J_RELATIONSHIP_TO_SERVICE"

/-! ## Graph model

Service and instance nodes are association lists from the unique `name`
property to the `update_id` property (the `unique_index` constraint of
neomodel guarantees at most one node per name and label, so lookups model
`nodes.get`).  `REGISTERED` edges go from an instance name to a service
name, `DEP_ON` edges from a service name to a service name. -/

/-- The neo4j database state. -/
structure Graph where
  services : List (String × String)
  instances : List (String × String)
  regEdges : List (String × String)
  depEdges : List (String × String)
deriving DecidableEq, Repr

/-- The empty database. -/
def Graph.empty : Graph := ⟨[], [], [], []⟩

/-- Association-list lookup by unique name (models `nodes.get`, returning
the `update_id` of the node when it exists, `none` for `DoesNotExist`). -/
def alookup (l : List (String × String)) (n : String) : Option String :=
  match l with
  | [] => none
  | p :: ps => if p.1 = n then some p.2 else alookup ps n

/-- Names of the service nodes of a graph. -/
def Graph.sNames (g : Graph) : List String := g.services.map Prod.fst

/-- Names of the instance nodes of a graph. -/
def Graph.iNames (g : Graph) : List String := g.instances.map Prod.fst

/-! ## Reconciler operations -/

/-- `merge_s`: get the service node by name; if absent, create it with the
transaction's `update_id`; else update its `update_id` in place.  The
in-place update is rendered as a key-preserving map (under the
`unique_index` constraint exactly one entry matches). -/
def merge_s (g : Graph) (name upd : String) : Graph :=
  match alookup g.services name with
  | none => { g with services := g.services ++ [(name, upd)] }
  | some _ =>
    { g with services := g.services.map (fun p => if p.1 = name then (p.1, upd) else p) }

/-- The node part of `merge_instance`: create the instance node or update
its `update_id` in place. -/
def upsert_instance_node (g : Graph) (iname upd : String) : Graph :=
  match alookup g.instances iname with
  | none => { g with instances := g.instances ++ [(iname, upd)] }
  | some _ =>
    { g with instances := g.instances.map (fun p => if p.1 = iname then (p.1, upd) else p) }

/-- `instance_node.service.connect(service_node)`: neomodel's `connect`
MERGEs the single `REGISTERED` relationship between the two given nodes —
it adds the edge if absent and removes nothing. -/
def connectReg (g : Graph) (iname sname : String) : Graph :=
  if (iname, sname) ∈ g.regEdges then g
  else { g with regEdges := g.regEdges ++ [(iname, sname)] }

/-- `service_node.service.connect(to_service_node)`: MERGE of the `DEP_ON`
relationship between the two given service nodes. -/
def connectDep (g : Graph) (src dst : String) : Graph :=
  if (src, dst) ∈ g.depEdges then g
  else { g with depEdges := g.depEdges ++ [(src, dst)] }

/-- `merge_instance`: `Service.nodes.get(service['Name'])` (raising —
modelled as `none` — if the owning service node is absent), then upsert
the instance node and connect its `REGISTERED` relationship to the
service. -/
def merge_instance (g : Graph) (sname iname upd : String) : Option Graph :=
  match alookup g.services sname with
  | none => none
  | some _ => some (connectReg (upsert_instance_node g iname upd) iname sname)

/-- The tag scan of `connect_service_rel_to_service`: iterate over the
tag list, overwriting the candidate target on every tag whose key matches,
so the last matching tag wins. -/
def relationshipTag (tags : List Tag) (key : String) : Option String :=
  tags.foldl (fun acc t => if t.key = key then some t.value else acc) none

/-- `connect_service_rel_to_service`: get the source service node
(raising — `none` — if absent), scan the tags for the relationship key;
if a target name was found, look the target service up; when it exists,
connect the `DEP_ON` edge, otherwise log and skip. -/
def connect_service_rel_to_service (g : Graph) (s : ServiceRec) (key : String) :
    Option Graph :=
  match alookup g.services s.name with
  | none => none
  | some _ =>
    match relationshipTag s.tags key with
    | none => some g
    | some target =>
      match alookup g.services target with
      | none => some g
      | some _ => some (connectDep g s.name target)

/-- The inner loop of `update_neo4j`'s first pass: `merge_instance` for
each instance record of one service. -/
def mergeInstances (g : Graph) (sname : String) (insts : List InstanceRec)
    (upd : String) : Option Graph :=
  match insts with
  | [] => some g
  | i :: rest =>
    match merge_instance g sname i.id upd with
    | none => none
    | some g' => mergeInstances g' sname rest upd

/-- The first `for` loop of `update_neo4j`: for each service, `merge_s`
then `merge_instance` for each of its instances. -/
def upsertPass (g : Graph) (ss : Snapshot) (upd : String) : Option Graph :=
  match ss with
  | [] => some g
  | s :: rest =>
    match mergeInstances (merge_s g s.name upd) s.name s.instances upd with
    | none => none
    | some g' => upsertPass g' rest upd

/-- The second `for` loop of `update_neo4j`:
`connect_service_rel_to_service` for each service. -/
def edgePass (g : Graph) (ss : Snapshot) (key : String) : Option Graph :=
  match ss with
  | [] => some g
  | s :: rest =>
    match connect_service_rel_to_service g s key with
    | none => none
    | some g' => edgePass g' rest key

/-- `update_neo4j`: upsert pass over all services and instances, then the
edge pass with the `NEO4J_RELATIONSHIP_TO_SERVICE` tag key. -/
def update_neo4j (ss : Snapshot) (upd : String) (g : Graph) : Option Graph :=
  match upsertPass g ss upd with
  | none => none
  | some g' => edgePass g' ss relTagKey

/-- `instance.delete()`: remove the instance node and its incident
relationships (`REGISTERED` edges leaving it). -/
def deleteInstanceNode (g : Graph) (n : String) : Graph :=
  { g with instances := g.instances.filter (fun p => p.1 != n),
           regEdges := g.regEdges.filter (fun e => e.1 != n) }

/-- `service.delete()`: remove the service node and its incident
relationships (`REGISTERED` edges into it, `DEP_ON` edges at either
end). -/
def deleteServiceNode (g : Graph) (n : String) : Graph :=
  { g with services := g.services.filter (fun p => p.1 != n),
           regEdges := g.regEdges.filter (fun e => e.2 != n),
           depEdges := g.depEdges.filter (fun e => e.1 != n && e.2 != n) }

/-- The first loop of `clean_neo4j`: iterate over the snapshot of
`Instance.nodes.all()` taken up front, deleting every instance whose
`update_id` differs from the transaction's. -/
def pruneInstances (g : Graph) (entries : List (String × String)) (upd : String) : Graph :=
  match entries with
  | [] => g
  | p :: rest =>
    pruneInstances (if p.2 ≠ upd then deleteInstanceNode g p.1 else g) rest upd

/-- The second loop of `clean_neo4j`, over `Service.nodes.all()`. -/
def pruneServices (g : Graph) (entries : List (String × String)) (upd : String) : Graph :=
  match entries with
  | [] => g
  | p :: rest =>
    pruneServices (if p.2 ≠ upd then deleteServiceNode g p.1 else g) rest upd

/-- `clean_neo4j`: prune stale instances first, then stale services. -/
def clean_neo4j (upd : String) (g : Graph) : Graph :=
  let g1 := pruneInstances g g.instances upd
  pruneServices g1 g1.services upd

/-- The reconciliation body run under the lock by `lambda_handler`:
`update_neo4j` followed by `clean_neo4j`, with the SQS message id as the
transaction's `update_id`. -/
def reconcile (ss : Snapshot) (upd : String) (g : Graph) : Option Graph :=
  match update_neo4j ss upd g with
  | none => none
  | some g' => some (clean_neo4j upd g')

/-! ## Orchestrator model (`lambda_handler`) -/

/-- One SQS message record, already parsed: the `messageId` used as the
transaction's `update_id`, and the body's `Services` list. -/
structure MessageRec where
  messageId : String
  services : Snapshot

/-- The lambda event: a `Records` list. -/
structure Event where
  records : List MessageRec

/-- The externally shared mutable state: the lock item and the graph. -/
structure World where
  lock : LockState
  graph : Graph

/-- The Python message of the multi-record rejection. -/
def multiRecordMsg : String :=
  "Event payload contains more than 1 message record in Record list. I can only process 1 message concurrently"

/-- The prefix the handler's `except` branch puts on a re-raised
reconciliation failure. -/
def reconcileFailPrefix : String := "Exception during update neo4j: "

/-- `lambda_handler`.  The reconciliation body (`update_neo4j` followed by
`clean_neo4j`) runs against a real store and may fail at any point, so it
is passed in as `recEff`: on success it returns the new graph, on failure
the error message together with the partially mutated graph.  The handler
rejects events with more than one record before touching anything, then
acquires the lock, runs the body, and releases the lock on the success
path (`else`) and on the failure path (`except`) alike, re-raising the
body's failure (with `reconcileFailPrefix`) only after the release; a
failure of `release_lock` itself propagates instead, as in the Python.
The result pairs the final world state with the outcome. -/
def lambda_handler
    (recEff : Snapshot → String → Graph → Except (String × Graph) Graph)
    (ev : Event) (w : World) : World × Except String Unit :=
  if ev.records.length > 1 then
    (w, .error multiRecordMsg)
  else
    match ev.records.head? with
    | none => (w, .error "list index out of range")
    | some rec =>
      match acquire_lock w.lock with
      | .error e => (w, .error e)
      | .ok l1 =>
        match recEff rec.services rec.messageId w.graph with
        | .ok g2 =>
          match release_lock l1 with
          | .ok l2 => (⟨l2, g2⟩, .ok ())
          | .error e => (⟨l1, g2⟩, .error e)
        | .error (e, gp) =>
          match release_lock l1 with
          | .ok l2 => (⟨l2, gp⟩, .error (reconcileFailPrefix ++ e))
          | .error e2 => (⟨l1, gp⟩, .error e2)

/-! ## Derived notions used by the specification claims -/

/-- The service names listed in a snapshot. -/
def snapSrvNames (ss : Snapshot) : List String := ss.map ServiceRec.name

/-- The instance ids listed (under any service) in a snapshot. -/
def snapInstIds (ss : Snapshot) : List String :=
  ss.foldr (fun s acc => s.instances.map InstanceRec.id ++ acc) []

/-- The instance-to-owning-service pairs listed in a snapshot: exactly the
`REGISTERED` edges the upsert pass connects. -/
def regPairs (ss : Snapshot) : List (String × String) :=
  ss.foldr (fun s acc => s.instances.map (fun i => (i.id, s.name)) ++ acc) []

/-- `DepFrom ss e`: some service record of `ss` declares, through its last
relationship tag, the dependency edge `e`. -/
def DepFrom (ss : Snapshot) (e : String × String) : Prop :=
  ∃ s ∈ ss, e.1 = s.name ∧ relationshipTag s.tags relTagKey = some e.2

/-- `staleIn entries upd n`: the node list `entries` holds an entry named
`n` whose stamp differs from `upd` — i.e. the prune loops of `clean_neo4j`
delete the node `n`. -/
def staleIn (entries : List (String × String)) (upd n : String) : Bool :=
  entries.any (fun q => q.1 == n && q.2 != upd)

/-- No node of `g` is stamped `t` (transaction ids are fresh: they derive
from unique SQS message ids). -/
def FreshStamp (t : String) (g : Graph) : Prop :=
  (∀ p ∈ g.services, p.2 ≠ t) ∧ (∀ p ∈ g.instances, p.2 ≠ t)

/-- Every node of `g` is stamped `t` (the state `clean_neo4j t` leaves
behind). -/
def Stamped (t : String) (g : Graph) : Prop :=
  (∀ p ∈ g.services, p.2 = t) ∧ (∀ p ∈ g.instances, p.2 = t)

/-- Every edge endpoint of `g` is an existing node of the right label —
an invariant of any real neo4j state, since relationships cannot
dangle. -/
def Graph.Closed (g : Graph) : Prop :=
  (∀ e ∈ g.regEdges, e.1 ∈ g.iNames) ∧ (∀ e ∈ g.regEdges, e.2 ∈ g.sNames) ∧
  (∀ e ∈ g.depEdges, e.1 ∈ g.sNames) ∧ (∀ e ∈ g.depEdges, e.2 ∈ g.sNames)

/-- `Covers ss u g`: the graph contains every entity of the snapshot `ss`
stamped `u`, the `REGISTERED` edge of every listed instance, and the
`DEP_ON` edge of every tag-declared dependency whose target exists.  This
is the state a reconciliation of `ss` under `u` establishes. -/
def Covers (ss : Snapshot) (u : String) (g : Graph) : Prop :=
  (∀ s ∈ ss, alookup g.services s.name = some u) ∧
  (∀ s ∈ ss, ∀ i ∈ s.instances, alookup g.instances i.id = some u) ∧
  (∀ s ∈ ss, ∀ i ∈ s.instances, (i.id, s.name) ∈ g.regEdges) ∧
  (∀ s ∈ ss, ∀ t, relationshipTag s.tags relTagKey = some t →
    t ∈ g.sNames → (s.name, t) ∈ g.depEdges)

/-- The graph with every node's stamp replaced by `t` and the edges kept:
the net effect of re-reconciling an unchanged snapshot under a new
transaction id. -/
def Graph.restamp (g : Graph) (t : String) : Graph :=
  ⟨g.services.map (fun p => (p.1, t)), g.instances.map (fun p => (p.1, t)),
   g.regEdges, g.depEdges⟩

/-- A reference to a graph node, carrying its label (instance and service
names live in distinct unique-index spaces). -/
inductive NodeRef where
  | srv (name : String)
  | inst (name : String)
deriving DecidableEq, Repr

/-- A reference to a graph relationship. -/
inductive EdgeRef where
  | reg (iname sname : String)
  | dep (src dst : String)
deriving DecidableEq, Repr

/-- The node referenced exists in the graph. -/
def Graph.hasNode (g : Graph) : NodeRef → Prop
  | .srv n => n ∈ g.sNames
  | .inst n => n ∈ g.iNames

/-- The relationship referenced exists in the graph. -/
def Graph.hasEdge (g : Graph) : EdgeRef → Prop
  | .reg i s => (i, s) ∈ g.regEdges
  | .dep a b => (a, b) ∈ g.depEdges

/-- The edge is incident to the node (label-aware). -/
def Incident (e : EdgeRef) (r : NodeRef) : Prop :=
  match e, r with
  | .reg i _, .inst n => i = n
  | .reg _ s, .srv n => s = n
  | .dep a b, .srv n => a = n ∨ b = n
  | .dep _ _, .inst _ => False

/-- `OmitsExactly S1 S2 r`: snapshot `S2` lists exactly the entities of
`S1` except for the single entity `r` — the hypothesis of the
omitted-entity claim ("S2 omits an entity present in S1", everything else
unchanged at the entity level). -/
def OmitsExactly (S1 S2 : Snapshot) : NodeRef → Prop
  | .srv n =>
    n ∈ snapSrvNames S1 ∧
    (∀ m, m ∈ snapSrvNames S2 ↔ (m ∈ snapSrvNames S1 ∧ m ≠ n)) ∧
    (∀ m, m ∈ snapInstIds S2 ↔ m ∈ snapInstIds S1)
  | .inst n =>
    n ∈ snapInstIds S1 ∧
    (∀ m, m ∈ snapInstIds S2 ↔ (m ∈ snapInstIds S1 ∧ m ≠ n)) ∧
    (∀ m, m ∈ snapSrvNames S2 ↔ m ∈ snapSrvNames S1)

/-! ## Theorems for C3 and C4 -/

/-- **C3**: `acquire_lock` on an absent record creates it locked with
version 1 and succeeds; on an existing record the conditional write
succeeds if and only if the record is unlocked and its version still
equals the value just read, in which case it locks the record and bumps
the version by one; in every other case it fails with the lock-conflict
error (and, the result being an error, the record is unchanged and no
retry is attempted); `acquire_lock` performs exactly one such
read-then-conditional-write. -/
theorem acquire_lock_spec :
    acquire_lock none = .ok (some ⟨true, 1⟩) ∧
    (∀ r : LockRecord, ∀ readVersion : Nat,
      (tryAcquireWrite (some r) readVersion = .ok (some ⟨true, readVersion + 1⟩) ↔
        (r.lock_bool = false ∧ r.version = readVersion)) ∧
      ((r.lock_bool = true ∨ r.version ≠ readVersion) →
        tryAcquireWrite (some r) readVersion = .error lockConflictMsg)) ∧
    (∀ r : LockRecord, acquire_lock (some r) = tryAcquireWrite (some r) r.version) := by
  refine ⟨rfl, ?_, fun r => rfl⟩
  intro r readVersion
  constructor
  · constructor
    · by_cases h : r.lock_bool = false ∧ r.version = readVersion
      · intro heq
        exact h
      · intro heq
        simp [tryAcquireWrite, h] at heq
    · intro h
      simp [tryAcquireWrite, h]
  · intro h
    have h' : ¬(r.lock_bool = false ∧ r.version = readVersion) := by
      rcases h with h | h
      · rintro ⟨h1, -⟩
        rw [h] at h1
        exact Bool.noConfusion h1
      · rintro ⟨-, h2⟩
        exact h h2
    simp [tryAcquireWrite, h']

/-- Witness for C3: concrete evaluations discharging each case of
`acquire_lock_spec`. -/
theorem acquire_lock_spec_witness :
    tryAcquireWrite (some ⟨false, 5⟩) 5 = .ok (some ⟨true, 6⟩) ∧
    tryAcquireWrite (some ⟨true, 5⟩) 5 = .error lockConflictMsg ∧
    tryAcquireWrite (some ⟨false, 5⟩) 4 = .error lockConflictMsg := by
  refine ⟨(acquire_lock_spec.2.1 ⟨false, 5⟩ 5).1.mpr (by decide), ?_, ?_⟩
  · exact (acquire_lock_spec.2.1 ⟨true, 5⟩ 5).2 (Or.inl rfl)
  · exact (acquire_lock_spec.2.1 ⟨false, 5⟩ 4).2 (Or.inr (by decide))

/-- **C4**: `release_lock` succeeds if and only if the record currently
has `lock_bool = true`, in which case it sets `lock_bool = false` and
leaves `version` exactly as it was; on an already-unlocked record (or a
missing one) it fails with the lock-not-held error, the result being an
error, so the record is unchanged; in particular every successful release
preserves the `version` field. -/
theorem release_lock_spec :
    (∀ r : LockRecord,
      (release_lock (some r) = .ok (some ⟨false, r.version⟩) ↔ r.lock_bool = true) ∧
      (r.lock_bool = false → release_lock (some r) = .error lockNotHeldMsg) ∧
      (∀ st', release_lock (some r) = .ok st' → st' = some ⟨false, r.version⟩)) ∧
    release_lock none = .error lockNotHeldMsg := by
  refine ⟨?_, rfl⟩
  intro r
  refine ⟨⟨?_, ?_⟩, ?_, ?_⟩
  · intro h
    by_cases hb : r.lock_bool
    · exact hb
    · simp [release_lock, hb] at h
  · intro h
    simp [release_lock, h]
  · intro h
    simp [release_lock, h]
  · intro st' h
    by_cases hb : r.lock_bool
    · simpa [release_lock, hb] using h.symm
    · simp [release_lock, hb] at h

/-- Witness for C4: concrete evaluations discharging each case of
`release_lock_spec`. -/
theorem release_lock_spec_witness :
    release_lock (some ⟨true, 7⟩) = .ok (some ⟨false, 7⟩) ∧
    release_lock (some ⟨false, 7⟩) = .error lockNotHeldMsg := by
  refine ⟨(release_lock_spec.1 ⟨true, 7⟩).1.mpr rfl, ?_⟩
  exact (release_lock_spec.1 ⟨false, 7⟩).2.1 rfl

/-- A successful `acquire_lock` always hands back a held lock record. -/
theorem acquire_lock_ok_shape (st : LockState) (l1 : LockState)
    (h : acquire_lock st = .ok l1) : ∃ v, l1 = some ⟨true, v⟩ := by
  match st with
  | none =>
    refine ⟨1, ?_⟩
    simpa [acquire_lock] using h.symm
  | some r =>
    by_cases hb : r.lock_bool = false
    · refine ⟨r.version + 1, ?_⟩
      simp [acquire_lock, tryAcquireWrite, hb] at h
      exact h.symm
    · simp [acquire_lock, tryAcquireWrite, hb] at h

/-! ## Theorems for C5 and C9 -/

/-- **C9**: whenever the event carries more than one message record, the
handler fails with the multi-record rejection before acquiring the lock
and before any graph mutation: the world (lock and graph alike) is
returned untouched, whatever the reconciliation body would have done. -/
theorem lambda_handler_multi_record
    (recEff : Snapshot → String → Graph → Except (String × Graph) Graph)
    (ev : Event) (w : World) (h : ev.records.length > 1) :
    lambda_handler recEff ev w = (w, .error multiRecordMsg) := by
  simp [lambda_handler, h]

/-- Witness for C9: a concrete two-record event is rejected outright. -/
theorem lambda_handler_multi_record_witness :
    lambda_handler (fun _ _ g => .ok g)
      ⟨[⟨"m1", []⟩, ⟨"m2", []⟩]⟩ ⟨none, Graph.empty⟩ =
      (⟨none, Graph.empty⟩, .error multiRecordMsg) :=
  lambda_handler_multi_record (fun _ _ g => .ok g)
    ⟨[⟨"m1", []⟩, ⟨"m2", []⟩]⟩ ⟨none, Graph.empty⟩ (by decide)

/-- **C5**: on a single-record event, (1) if `acquire_lock` fails the
whole invocation fails immediately with that error and the world — lock
and graph — is untouched; (2) if `acquire_lock` succeeds (handing back a
held record with some version `v`), then whatever the reconciliation body
does, the lock is released: on body success the handler returns the new
graph with the lock released and no error, and on body failure it returns
the partially mutated graph with the lock released and re-raises the
failure (prefixed) — so the failure reaches the caller only after the
release has happened. -/
theorem lambda_handler_lock_discipline
    (recEff : Snapshot → String → Graph → Except (String × Graph) Graph)
    (ev : Event) (w : World) (rec : MessageRec) (hrec : ev.records = [rec]) :
    (∀ e, acquire_lock w.lock = .error e →
      lambda_handler recEff ev w = (w, .error e)) ∧
    (∀ v, acquire_lock w.lock = .ok (some ⟨true, v⟩) →
      (∀ g2, recEff rec.services rec.messageId w.graph = .ok g2 →
        lambda_handler recEff ev w = (⟨some ⟨false, v⟩, g2⟩, .ok ())) ∧
      (∀ e gp, recEff rec.services rec.messageId w.graph = .error (e, gp) →
        lambda_handler recEff ev w =
          (⟨some ⟨false, v⟩, gp⟩, .error (reconcileFailPrefix ++ e)))) := by
  have hlen : ¬ ev.records.length > 1 := by
    simp [hrec]
  have hhead : ev.records.head? = some rec := by
    rw [hrec]
    rfl
  constructor
  · intro e he
    simp [lambda_handler, hlen, hhead, he]
  · intro v hv
    constructor
    · intro g2 hg2
      simp [lambda_handler, hlen, hhead, hv, hg2, release_lock]
    · intro e gp hfail
      simp [lambda_handler, hlen, hhead, hv, hfail, release_lock]

/-- Witness for C5: a concrete single-record invocation from an absent
lock item, with a body that succeeds; the handler ends with the lock
created, acquired and then released at version 1, and the body's graph. -/
theorem lambda_handler_lock_discipline_witness :
    lambda_handler (fun _ _ g => .ok g) ⟨[⟨"m1", []⟩]⟩ ⟨none, Graph.empty⟩ =
      (⟨some ⟨false, 1⟩, Graph.empty⟩, .ok ()) :=
  ((lambda_handler_lock_discipline (fun _ _ g => .ok g) ⟨[⟨"m1", []⟩]⟩
      ⟨none, Graph.empty⟩ ⟨"m1", []⟩ rfl).2 1 rfl).1 Graph.empty rfl

/-! ## Helper lemmas: association-list lookup -/

theorem alookup_isSome_iff (l : List (String × String)) (n : String) :
    (alookup l n).isSome = true ↔ n ∈ l.map Prod.fst := by
  induction l with
  | nil => simp [alookup]
  | cons p ps ih =>
    by_cases h : p.1 = n
    · simp [alookup, h]
    · simp only [alookup, h, if_false, List.map_cons, List.mem_cons, ih]
      constructor
      · exact fun hm => Or.inr hm
      · rintro (hm | hm)
        · exact absurd hm.symm h
        · exact hm

theorem alookup_eq_none_iff (l : List (String × String)) (n : String) :
    alookup l n = none ↔ n ∉ l.map Prod.fst := by
  rw [← alookup_isSome_iff]
  cases alookup l n <;> simp

theorem alookup_mem (l : List (String × String)) (n v : String)
    (h : alookup l n = some v) : (n, v) ∈ l := by
  induction l with
  | nil => simp [alookup] at h
  | cons p ps ih =>
    by_cases hp : p.1 = n
    · simp only [alookup, hp, if_true, Option.some.injEq] at h
      have : (n, v) = p := by
        calc (n, v) = (p.1, p.2) := by rw [hp, h]
          _ = p := rfl
      exact List.mem_cons.mpr (Or.inl this)
    · simp only [alookup, hp, if_false] at h
      exact List.mem_cons_of_mem _ (ih h)

theorem alookup_eq_some_of_mem (l : List (String × String)) (n v : String)
    (hmem : (n, v) ∈ l) (huniq : ∀ w, (n, w) ∈ l → w = v) :
    alookup l n = some v := by
  induction l with
  | nil => simp at hmem
  | cons p ps ih =>
    by_cases hp : p.1 = n
    · have hpl : (n, p.2) ∈ p :: ps := by
        refine List.mem_cons.mpr (Or.inl ?_)
        calc (n, p.2) = (p.1, p.2) := by rw [hp]
          _ = p := rfl
      have := huniq p.2 hpl
      simp [alookup, hp, this]
    · rcases List.mem_cons.mp hmem with heq | hmem'
      · exact absurd (congrArg Prod.fst heq).symm hp
      · have := ih hmem' (fun w hw => huniq w (List.mem_cons_of_mem _ hw))
        simpa [alookup, hp] using this

theorem mem_names_of_mem {l : List (String × String)} {n v : String}
    (h : (n, v) ∈ l) : n ∈ l.map Prod.fst :=
  List.mem_map.mpr ⟨(n, v), h, rfl⟩

theorem exists_mem_of_mem_names {l : List (String × String)} {n : String}
    (h : n ∈ l.map Prod.fst) : ∃ v, (n, v) ∈ l := by
  rcases List.mem_map.mp h with ⟨p, hp, hfst⟩
  refine ⟨p.2, ?_⟩
  have : (n, p.2) = p := by
    calc (n, p.2) = (p.1, p.2) := by rw [hfst]
      _ = p := rfl
  rwa [this]

/-! ## Helper lemmas: single reconciler operations -/

theorem merge_s_fields (g : Graph) (n u : String) :
    (merge_s g n u).instances = g.instances ∧
    (merge_s g n u).regEdges = g.regEdges ∧
    (merge_s g n u).depEdges = g.depEdges := by
  unfold merge_s
  cases alookup g.services n <;> exact ⟨rfl, rfl, rfl⟩

theorem mem_update_entries (l : List (String × String)) (x u m v : String) :
    (m, v) ∈ l.map (fun p => if p.1 = x then (p.1, u) else p) ↔
      ((m = x ∧ v = u ∧ x ∈ l.map Prod.fst) ∨ ((m, v) ∈ l ∧ m ≠ x)) := by
  rw [List.mem_map]
  constructor
  · rintro ⟨p, hp, hpe⟩
    by_cases hpx : p.1 = x
    · rw [if_pos hpx] at hpe
      have h1 : p.1 = m := congrArg Prod.fst hpe
      have h2 : u = v := congrArg Prod.snd hpe
      exact Or.inl ⟨h1.symm.trans hpx, h2.symm, hpx ▸ mem_names_of_mem (show (p.1, p.2) ∈ l from hp)⟩
    · rw [if_neg hpx] at hpe
      refine Or.inr ⟨hpe ▸ hp, ?_⟩
      rintro rfl
      exact hpx (congrArg Prod.fst hpe)
  · rintro (⟨hmx, hvu, hxl⟩ | ⟨hm, hmx⟩)
    · rcases exists_mem_of_mem_names hxl with ⟨w', hw'⟩
      refine ⟨(x, w'), hw', ?_⟩
      rw [hmx, hvu]
      simp
    · refine ⟨(m, v), hm, ?_⟩
      simp [hmx]

theorem merge_s_services_of_none {g : Graph} {x : String} (u : String)
    (h : alookup g.services x = none) :
    (merge_s g x u).services = g.services ++ [(x, u)] := by
  simp only [merge_s, h]

theorem merge_s_services_of_some {g : Graph} {x w : String} (u : String)
    (h : alookup g.services x = some w) :
    (merge_s g x u).services =
      g.services.map (fun p => if p.1 = x then (p.1, u) else p) := by
  simp only [merge_s, h]

theorem mem_merge_s_services (g : Graph) (x u m v : String) :
    (m, v) ∈ (merge_s g x u).services ↔
      ((m = x ∧ v = u) ∨ ((m, v) ∈ g.services ∧ m ≠ x)) := by
  cases h : alookup g.services x with
  | none =>
    have hx : x ∉ g.services.map Prod.fst := (alookup_eq_none_iff _ _).mp h
    rw [merge_s_services_of_none u h]
    simp only [List.mem_append, List.mem_singleton, Prod.mk.injEq]
    constructor
    · rintro (hm | ⟨hm1, hm2⟩)
      · refine Or.inr ⟨hm, ?_⟩
        rintro rfl
        exact hx (mem_names_of_mem hm)
      · exact Or.inl ⟨hm1, hm2⟩
    · rintro (⟨hm1, hm2⟩ | ⟨hm, -⟩)
      · exact Or.inr ⟨hm1, hm2⟩
      · exact Or.inl hm
  | some w =>
    have hx : x ∈ g.services.map Prod.fst := by
      rw [← alookup_isSome_iff, h]
      rfl
    rw [merge_s_services_of_some u h, mem_update_entries]
    constructor
    · rintro (⟨h1, h2, -⟩ | hm)
      · exact Or.inl ⟨h1, h2⟩
      · exact Or.inr hm
    · rintro (⟨h1, h2⟩ | hm)
      · exact Or.inl ⟨h1, h2, hx⟩
      · exact Or.inr hm

theorem upsert_instance_node_fields (g : Graph) (n u : String) :
    (upsert_instance_node g n u).services = g.services ∧
    (upsert_instance_node g n u).regEdges = g.regEdges ∧
    (upsert_instance_node g n u).depEdges = g.depEdges := by
  unfold upsert_instance_node
  cases alookup g.instances n <;> exact ⟨rfl, rfl, rfl⟩

theorem upsert_instances_of_none {g : Graph} {x : String} (u : String)
    (h : alookup g.instances x = none) :
    (upsert_instance_node g x u).instances = g.instances ++ [(x, u)] := by
  simp only [upsert_instance_node, h]

theorem upsert_instances_of_some {g : Graph} {x w : String} (u : String)
    (h : alookup g.instances x = some w) :
    (upsert_instance_node g x u).instances =
      g.instances.map (fun p => if p.1 = x then (p.1, u) else p) := by
  simp only [upsert_instance_node, h]

theorem mem_upsert_instance_node (g : Graph) (x u m v : String) :
    (m, v) ∈ (upsert_instance_node g x u).instances ↔
      ((m = x ∧ v = u) ∨ ((m, v) ∈ g.instances ∧ m ≠ x)) := by
  cases h : alookup g.instances x with
  | none =>
    have hx : x ∉ g.instances.map Prod.fst := (alookup_eq_none_iff _ _).mp h
    rw [upsert_instances_of_none u h]
    simp only [List.mem_append, List.mem_singleton, Prod.mk.injEq]
    constructor
    · rintro (hm | ⟨hm1, hm2⟩)
      · refine Or.inr ⟨hm, ?_⟩
        rintro rfl
        exact hx (mem_names_of_mem hm)
      · exact Or.inl ⟨hm1, hm2⟩
    · rintro (⟨hm1, hm2⟩ | ⟨hm, -⟩)
      · exact Or.inr ⟨hm1, hm2⟩
      · exact Or.inl hm
  | some w =>
    have hx : x ∈ g.instances.map Prod.fst := by
      rw [← alookup_isSome_iff, h]
      rfl
    rw [upsert_instances_of_some u h, mem_update_entries]
    constructor
    · rintro (⟨h1, h2, -⟩ | hm)
      · exact Or.inl ⟨h1, h2⟩
      · exact Or.inr hm
    · rintro (⟨h1, h2⟩ | hm)
      · exact Or.inl ⟨h1, h2, hx⟩
      · exact Or.inr hm

theorem connectReg_fields (g : Graph) (i s : String) :
    (connectReg g i s).services = g.services ∧
    (connectReg g i s).instances = g.instances ∧
    (connectReg g i s).depEdges = g.depEdges := by
  unfold connectReg
  split <;> exact ⟨rfl, rfl, rfl⟩

theorem mem_connectReg (g : Graph) (i s : String) (e : String × String) :
    e ∈ (connectReg g i s).regEdges ↔ (e ∈ g.regEdges ∨ e = (i, s)) := by
  unfold connectReg
  split
  · rename_i hmem
    constructor
    · exact Or.inl
    · rintro (h | rfl)
      · exact h
      · exact hmem
  · simp [List.mem_append]

theorem connectDep_fields (g : Graph) (a b : String) :
    (connectDep g a b).services = g.services ∧
    (connectDep g a b).instances = g.instances ∧
    (connectDep g a b).regEdges = g.regEdges := by
  unfold connectDep
  split <;> exact ⟨rfl, rfl, rfl⟩

theorem mem_connectDep (g : Graph) (a b : String) (e : String × String) :
    e ∈ (connectDep g a b).depEdges ↔ (e ∈ g.depEdges ∨ e = (a, b)) := by
  unfold connectDep
  split
  · rename_i hmem
    constructor
    · exact Or.inl
    · rintro (h | rfl)
      · exact h
      · exact hmem
  · simp [List.mem_append]

/-! ## Helper lemmas: the upsert pass -/

theorem snapSrvNames_cons (s : ServiceRec) (rest : Snapshot) :
    snapSrvNames (s :: rest) = s.name :: snapSrvNames rest := rfl

theorem snapInstIds_cons (s : ServiceRec) (rest : Snapshot) :
    snapInstIds (s :: rest) = s.instances.map InstanceRec.id ++ snapInstIds rest := rfl

theorem regPairs_cons (s : ServiceRec) (rest : Snapshot) :
    regPairs (s :: rest) = s.instances.map (fun i => (i.id, s.name)) ++ regPairs rest := rfl

theorem merge_instance_spec {g : Graph} {sname : String} (iname upd : String)
    (h : (alookup g.services sname).isSome = true) :
    ∃ g', merge_instance g sname iname upd = some g' ∧
      g'.services = g.services ∧
      g'.depEdges = g.depEdges ∧
      (∀ m v, ((m, v) ∈ g'.instances ↔
        ((m = iname ∧ v = upd) ∨ ((m, v) ∈ g.instances ∧ m ≠ iname)))) ∧
      (∀ e, e ∈ g'.regEdges ↔ (e ∈ g.regEdges ∨ e = (iname, sname))) := by
  cases hs : alookup g.services sname with
  | none => rw [hs] at h ; simp at h
  | some w =>
    refine ⟨connectReg (upsert_instance_node g iname upd) iname sname, ?_, ?_, ?_, ?_, ?_⟩
    · simp only [merge_instance, hs]
    · rw [(connectReg_fields _ _ _).1, (upsert_instance_node_fields _ _ _).1]
    · rw [(connectReg_fields _ _ _).2.2, (upsert_instance_node_fields _ _ _).2.2]
    · intro m v
      rw [(connectReg_fields _ _ _).2.1]
      exact mem_upsert_instance_node g iname upd m v
    · intro e
      rw [mem_connectReg, (upsert_instance_node_fields _ _ _).2.1]

theorem mergeInstances_spec :
    ∀ (insts : List InstanceRec) (g : Graph) (sname upd : String),
    (alookup g.services sname).isSome = true →
    ∃ g', mergeInstances g sname insts upd = some g' ∧
      g'.services = g.services ∧
      g'.depEdges = g.depEdges ∧
      (∀ m v, ((m, v) ∈ g'.instances ↔
        ((m ∈ insts.map InstanceRec.id ∧ v = upd) ∨
          ((m, v) ∈ g.instances ∧ m ∉ insts.map InstanceRec.id)))) ∧
      (∀ e, e ∈ g'.regEdges ↔ (e ∈ g.regEdges ∨ ∃ i ∈ insts, e = (i.id, sname))) := by
  intro insts
  induction insts with
  | nil =>
    intro g sname upd _
    refine ⟨g, rfl, rfl, rfl, ?_, ?_⟩
    · intro m v
      simp
    · intro e
      simp
  | cons i rest ih =>
    intro g sname upd h
    rcases merge_instance_spec i.id upd h with ⟨g1, hg1, hsrv1, hdep1, hinst1, hreg1⟩
    have h1 : (alookup g1.services sname).isSome = true := by rwa [hsrv1]
    rcases ih g1 sname upd h1 with ⟨g', hg', hsrv', hdep', hinst', hreg'⟩
    refine ⟨g', ?_, hsrv'.trans hsrv1, hdep'.trans hdep1, ?_, ?_⟩
    · simp only [mergeInstances, hg1, hg']
    · intro m v
      rw [hinst' m v]
      simp only [hinst1 m v, List.map_cons, List.mem_cons]
      tauto
    · intro e
      rw [hreg' e]
      simp only [hreg1 e]
      constructor
      · rintro ((he | he) | ⟨i', hi', he⟩)
        · exact Or.inl he
        · exact Or.inr ⟨i, List.mem_cons_self i rest, he⟩
        · exact Or.inr ⟨i', List.mem_cons_of_mem i hi', he⟩
      · rintro (he | ⟨i', hi', he⟩)
        · exact Or.inl (Or.inl he)
        · rcases List.mem_cons.mp hi' with rfl | hi''
          · exact Or.inl (Or.inr he)
          · exact Or.inr ⟨i', hi'', he⟩

theorem upsertPass_spec :
    ∀ (ss : Snapshot) (g : Graph) (upd : String),
    ∃ g', upsertPass g ss upd = some g' ∧
      g'.depEdges = g.depEdges ∧
      (∀ m v, ((m, v) ∈ g'.services ↔
        ((m ∈ snapSrvNames ss ∧ v = upd) ∨
          ((m, v) ∈ g.services ∧ m ∉ snapSrvNames ss)))) ∧
      (∀ m v, ((m, v) ∈ g'.instances ↔
        ((m ∈ snapInstIds ss ∧ v = upd) ∨
          ((m, v) ∈ g.instances ∧ m ∉ snapInstIds ss)))) ∧
      (∀ e, e ∈ g'.regEdges ↔ (e ∈ g.regEdges ∨ e ∈ regPairs ss)) := by
  intro ss
  induction ss with
  | nil =>
    intro g upd
    refine ⟨g, rfl, rfl, ?_, ?_, ?_⟩
    · intro m v
      simp [snapSrvNames]
    · intro m v
      simp [snapInstIds]
    · intro e
      simp [regPairs]
  | cons s rest ih =>
    intro g upd
    have hpres : (alookup (merge_s g s.name upd).services s.name).isSome = true := by
      rw [alookup_isSome_iff]
      exact mem_names_of_mem ((mem_merge_s_services g s.name upd s.name upd).mpr
        (Or.inl ⟨rfl, rfl⟩))
    rcases mergeInstances_spec s.instances (merge_s g s.name upd) s.name upd hpres with
      ⟨g2, hg2, hsrv2, hdep2, hinst2, hreg2⟩
    rcases ih g2 upd with ⟨g', hg', hdep', hsrvI, hinstI, hregI⟩
    refine ⟨g', ?_, ?_, ?_, ?_, ?_⟩
    · simp only [upsertPass, hg2, hg']
    · rw [hdep', hdep2, (merge_s_fields g s.name upd).2.2]
    · intro m v
      rw [hsrvI m v]
      rw [show g2.services = (merge_s g s.name upd).services from hsrv2]
      simp only [mem_merge_s_services, snapSrvNames_cons, List.mem_cons]
      tauto
    · intro m v
      rw [hinstI m v]
      simp only [hinst2 m v, (merge_s_fields g s.name upd).1,
        snapInstIds_cons, List.mem_append]
      tauto
    · intro e
      rw [hregI e]
      simp only [hreg2 e, (merge_s_fields g s.name upd).2.1,
        regPairs_cons, List.mem_append, List.mem_map]
      constructor
      · rintro ((he | ⟨i', hi', he⟩) | he)
        · exact Or.inl he
        · exact Or.inr (Or.inl ⟨i', hi', he.symm⟩)
        · exact Or.inr (Or.inr he)
      · rintro (he | (⟨i', hi', he⟩ | he))
        · exact Or.inl (Or.inl he)
        · exact Or.inl (Or.inr ⟨i', hi', he.symm⟩)
        · exact Or.inr he

/-! ## Helper lemmas: the edge pass -/

theorem sNames_eq_of_services_eq {g g' : Graph} (h : g'.services = g.services) :
    g'.sNames = g.sNames := by
  unfold Graph.sNames
  rw [h]

theorem iNames_eq_of_instances_eq {g g' : Graph} (h : g'.instances = g.instances) :
    g'.iNames = g.iNames := by
  unfold Graph.iNames
  rw [h]

theorem connect_service_rel_spec {g : Graph} {s : ServiceRec} (key : String)
    (h : (alookup g.services s.name).isSome = true) :
    ∃ g', connect_service_rel_to_service g s key = some g' ∧
      g'.services = g.services ∧ g'.instances = g.instances ∧
      g'.regEdges = g.regEdges ∧
      (∀ e : String × String, e ∈ g'.depEdges ↔ (e ∈ g.depEdges ∨
        (e.1 = s.name ∧ relationshipTag s.tags key = some e.2 ∧ e.2 ∈ g.sNames))) := by
  cases hs : alookup g.services s.name with
  | none => rw [hs] at h ; simp at h
  | some w =>
    cases ht : relationshipTag s.tags key with
    | none =>
      refine ⟨g, ?_, rfl, rfl, rfl, ?_⟩
      · simp only [connect_service_rel_to_service, hs, ht]
      · intro e
        simp
    | some target =>
      cases htr : alookup g.services target with
      | none =>
        have htn : target ∉ g.sNames := (alookup_eq_none_iff _ _).mp htr
        refine ⟨g, ?_, rfl, rfl, rfl, ?_⟩
        · simp only [connect_service_rel_to_service, hs, ht, htr]
        · intro e
          constructor
          · exact Or.inl
          · rintro (he | ⟨-, hsome, hmem⟩)
            · exact he
            · rw [Option.some.injEq] at hsome
              exact absurd (hsome ▸ hmem) htn
      | some w' =>
        have htm : target ∈ g.sNames := by
          rw [show g.sNames = g.services.map Prod.fst from rfl, ← alookup_isSome_iff, htr]
          rfl
        refine ⟨connectDep g s.name target, ?_, (connectDep_fields _ _ _).1,
          (connectDep_fields _ _ _).2.1, (connectDep_fields _ _ _).2.2, ?_⟩
        · simp only [connect_service_rel_to_service, hs, ht, htr]
        · intro e
          rw [mem_connectDep]
          constructor
          · rintro (he | rfl)
            · exact Or.inl he
            · exact Or.inr ⟨rfl, rfl, htm⟩
          · rintro (he | ⟨h1, h2, -⟩)
            · exact Or.inl he
            · rw [Option.some.injEq] at h2
              refine Or.inr ?_
              calc e = (e.1, e.2) := rfl
                _ = (s.name, target) := by rw [h1, h2]

theorem edgePass_spec :
    ∀ (ss : Snapshot) (g : Graph) (key : String),
    (∀ s ∈ ss, s.name ∈ g.sNames) →
    ∃ g', edgePass g ss key = some g' ∧
      g'.services = g.services ∧ g'.instances = g.instances ∧
      g'.regEdges = g.regEdges ∧
      (∀ e : String × String, e ∈ g'.depEdges ↔ (e ∈ g.depEdges ∨
        (∃ s ∈ ss, e.1 = s.name ∧ relationshipTag s.tags key = some e.2 ∧
          e.2 ∈ g.sNames))) := by
  intro ss
  induction ss with
  | nil =>
    intro g key _
    refine ⟨g, rfl, rfl, rfl, rfl, ?_⟩
    intro e
    simp
  | cons s rest ih =>
    intro g key hnames
    have hpres : (alookup g.services s.name).isSome = true := by
      rw [alookup_isSome_iff]
      exact hnames s (List.mem_cons_self s rest)
    rcases connect_service_rel_spec key hpres with ⟨g1, hg1, hsrv1, hinst1, hreg1, hdep1⟩
    have hnames1 : ∀ s' ∈ rest, s'.name ∈ g1.sNames := by
      intro s' hs'
      rw [sNames_eq_of_services_eq hsrv1]
      exact hnames s' (List.mem_cons_of_mem s hs')
    rcases ih g1 key hnames1 with ⟨g', hg', hsrvI, hinstI, hregI, hdepI⟩
    refine ⟨g', ?_, hsrvI.trans hsrv1, hinstI.trans hinst1, hregI.trans hreg1, ?_⟩
    · simp only [edgePass, hg1, hg']
    · intro e
      rw [hdepI e, sNames_eq_of_services_eq hsrv1]
      simp only [hdep1 e]
      constructor
      · rintro ((he | he) | ⟨s', hs', he⟩)
        · exact Or.inl he
        · exact Or.inr ⟨s, List.mem_cons_self s rest, he⟩
        · exact Or.inr ⟨s', List.mem_cons_of_mem s hs', he⟩
      · rintro (he | ⟨s', hs', he⟩)
        · exact Or.inl (Or.inl he)
        · rcases List.mem_cons.mp hs' with rfl | hs''
          · exact Or.inl (Or.inr he)
          · exact Or.inr ⟨s', hs'', he⟩

/-! ## Helper lemmas: the prune passes -/

theorem staleIn_nil (u n : String) : staleIn [] u n = false := rfl

theorem staleIn_cons (p : String × String) (rest : List (String × String)) (u n : String) :
    staleIn (p :: rest) u n = ((p.1 == n && p.2 != u) || staleIn rest u n) := by
  simp [staleIn, List.any_cons]

theorem staleIn_eq_false_iff (entries : List (String × String)) (u n : String) :
    staleIn entries u n = false ↔ ∀ q ∈ entries, q.1 = n → q.2 = u := by
  unfold staleIn
  rw [List.any_eq_false]
  constructor
  · intro h q hq hqn
    by_contra hne
    have hb : (q.1 == n && q.2 != u) = true := by
      rw [Bool.and_eq_true, beq_iff_eq, bne_iff_ne]
      exact ⟨hqn, hne⟩
    exact h q hq hb
  · intro h q hq
    by_cases hqn : q.1 = n
    · simp [hqn, h q hq hqn]
    · simp [hqn]

theorem staleIn_eq_true_iff (entries : List (String × String)) (u n : String) :
    staleIn entries u n = true ↔ ∃ q ∈ entries, q.1 = n ∧ q.2 ≠ u := by
  unfold staleIn
  rw [List.any_eq_true]
  constructor
  · rintro ⟨q, hq, hb⟩
    rw [Bool.and_eq_true, beq_iff_eq, bne_iff_ne] at hb
    exact ⟨q, hq, hb⟩
  · rintro ⟨q, hq, h1, h2⟩
    exact ⟨q, hq, by rw [Bool.and_eq_true, beq_iff_eq, bne_iff_ne] ; exact ⟨h1, h2⟩⟩

theorem pruneInstances_eq :
    ∀ (entries : List (String × String)) (g : Graph) (u : String),
    pruneInstances g entries u =
      { g with instances := g.instances.filter (fun p => !staleIn entries u p.1),
               regEdges := g.regEdges.filter (fun e => !staleIn entries u e.1) } := by
  intro entries
  induction entries with
  | nil =>
    intro g u
    obtain ⟨gs, gi, gr, gd⟩ := g
    simp [pruneInstances, staleIn_nil]
  | cons p rest ih =>
    intro g u
    by_cases hp : p.2 = u
    · have hne : ¬ p.2 ≠ u := by simp [hp]
      have hbody : pruneInstances g (p :: rest) u = pruneInstances g rest u := by
        simp only [pruneInstances, if_neg hne]
      rw [hbody, ih g u]
      have hpt : ∀ n, staleIn (p :: rest) u n = staleIn rest u n := by
        intro n
        rw [staleIn_cons]
        simp [bne, hp]
      congr 1
      · exact List.filter_congr (fun q _ => by rw [hpt q.1])
      · exact List.filter_congr (fun e _ => by rw [hpt e.1])
    · have hbody : pruneInstances g (p :: rest) u =
          pruneInstances (deleteInstanceNode g p.1) rest u := by
        simp only [pruneInstances, if_pos hp]
      rw [hbody, ih (deleteInstanceNode g p.1) u]
      have hpt : ∀ n, (!staleIn rest u n && (n != p.1)) = !staleIn (p :: rest) u n := by
        intro n
        rw [staleIn_cons]
        by_cases hn : n = p.1
        · simp [hn, bne, hp]
        · have h1 : (p.1 == n) = false := by
            simp [Ne.symm hn]
          have h2 : (n != p.1) = true := by
            simp [bne, hn]
          simp [h1, h2]
      unfold deleteInstanceNode
      congr 1
      · rw [List.filter_filter]
        exact List.filter_congr (fun q _ => hpt q.1)
      · rw [List.filter_filter]
        exact List.filter_congr (fun e _ => hpt e.1)

theorem pruneServices_eq :
    ∀ (entries : List (String × String)) (g : Graph) (u : String),
    pruneServices g entries u =
      { g with services := g.services.filter (fun p => !staleIn entries u p.1),
               regEdges := g.regEdges.filter (fun e => !staleIn entries u e.2),
               depEdges := g.depEdges.filter
                 (fun e => !staleIn entries u e.1 && !staleIn entries u e.2) } := by
  intro entries
  induction entries with
  | nil =>
    intro g u
    obtain ⟨gs, gi, gr, gd⟩ := g
    simp [pruneServices, staleIn_nil]
  | cons p rest ih =>
    intro g u
    by_cases hp : p.2 = u
    · have hne : ¬ p.2 ≠ u := by simp [hp]
      have hbody : pruneServices g (p :: rest) u = pruneServices g rest u := by
        simp only [pruneServices, if_neg hne]
      rw [hbody, ih g u]
      have hpt : ∀ n, staleIn (p :: rest) u n = staleIn rest u n := by
        intro n
        rw [staleIn_cons]
        simp [bne, hp]
      congr 1
      · exact List.filter_congr (fun q _ => by rw [hpt q.1])
      · exact List.filter_congr (fun e _ => by rw [hpt e.2])
      · exact List.filter_congr (fun e _ => by rw [hpt e.1, hpt e.2])
    · have hbody : pruneServices g (p :: rest) u =
          pruneServices (deleteServiceNode g p.1) rest u := by
        simp only [pruneServices, if_pos hp]
      rw [hbody, ih (deleteServiceNode g p.1) u]
      have hpt : ∀ n, (!staleIn rest u n && (n != p.1)) = !staleIn (p :: rest) u n := by
        intro n
        rw [staleIn_cons]
        by_cases hn : n = p.1
        · simp [hn, bne, hp]
        · have h1 : (p.1 == n) = false := by
            simp [Ne.symm hn]
          have h2 : (n != p.1) = true := by
            simp [bne, hn]
          simp [h1, h2]
      unfold deleteServiceNode
      congr 1
      · rw [List.filter_filter]
        exact List.filter_congr (fun q _ => hpt q.1)
      · rw [List.filter_filter]
        exact List.filter_congr (fun e _ => hpt e.2)
      · rw [List.filter_filter]
        refine List.filter_congr (fun e _ => ?_)
        rw [← hpt e.1, ← hpt e.2]
        cases hsr : staleIn rest u e.1 <;> cases hsr2 : staleIn rest u e.2 <;>
          cases hb1 : (e.1 != p.1) <;> cases hb2 : (e.2 != p.1) <;> rfl

theorem clean_neo4j_eq (u : String) (g : Graph) :
    clean_neo4j u g =
      { services := g.services.filter (fun p => !staleIn g.services u p.1),
        instances := g.instances.filter (fun p => !staleIn g.instances u p.1),
        regEdges := (g.regEdges.filter (fun e => !staleIn g.instances u e.1)).filter
          (fun e => !staleIn g.services u e.2),
        depEdges := g.depEdges.filter
          (fun e => !staleIn g.services u e.1 && !staleIn g.services u e.2) } := by
  show pruneServices (pruneInstances g g.instances u)
    (pruneInstances g g.instances u).services u = _
  rw [pruneInstances_eq, pruneServices_eq]

theorem mem_clean_services (u : String) (g : Graph) (m v : String) :
    (m, v) ∈ (clean_neo4j u g).services ↔
      ((m, v) ∈ g.services ∧ staleIn g.services u m = false) := by
  rw [clean_neo4j_eq]
  simp [List.mem_filter]

theorem mem_clean_instances (u : String) (g : Graph) (m v : String) :
    (m, v) ∈ (clean_neo4j u g).instances ↔
      ((m, v) ∈ g.instances ∧ staleIn g.instances u m = false) := by
  rw [clean_neo4j_eq]
  simp [List.mem_filter]

theorem mem_clean_reg (u : String) (g : Graph) (e : String × String) :
    e ∈ (clean_neo4j u g).regEdges ↔
      (e ∈ g.regEdges ∧ staleIn g.instances u e.1 = false ∧
        staleIn g.services u e.2 = false) := by
  rw [clean_neo4j_eq]
  simp only [List.mem_filter, Bool.not_eq_true']
  tauto

theorem mem_clean_dep (u : String) (g : Graph) (e : String × String) :
    e ∈ (clean_neo4j u g).depEdges ↔
      (e ∈ g.depEdges ∧ staleIn g.services u e.1 = false ∧
        staleIn g.services u e.2 = false) := by
  rw [clean_neo4j_eq]
  simp only [List.mem_filter, Bool.and_eq_true, Bool.not_eq_true']
  try tauto

/-- Every node left by `clean_neo4j u` carries the stamp `u`. -/
theorem clean_stamped (u : String) (g : Graph) : Stamped u (clean_neo4j u g) := by
  constructor
  · intro p hp
    have := (mem_clean_services u g p.1 p.2).mp hp
    exact (staleIn_eq_false_iff _ _ _).mp this.2 (p.1, p.2) this.1 rfl
  · intro p hp
    have := (mem_clean_instances u g p.1 p.2).mp hp
    exact (staleIn_eq_false_iff _ _ _).mp this.2 (p.1, p.2) this.1 rfl

/-! ## Helper lemmas: snapshot-level membership -/

theorem mem_snapSrvNames (ss : Snapshot) (m : String) :
    m ∈ snapSrvNames ss ↔ ∃ s ∈ ss, s.name = m := by
  unfold snapSrvNames
  rw [List.mem_map]

theorem mem_snapInstIds :
    ∀ (ss : Snapshot) (m : String),
    m ∈ snapInstIds ss ↔ ∃ s ∈ ss, ∃ i ∈ s.instances, i.id = m := by
  intro ss
  induction ss with
  | nil =>
    intro m
    simp [snapInstIds]
  | cons s rest ih =>
    intro m
    rw [snapInstIds_cons, List.mem_append, List.mem_map, ih]
    constructor
    · rintro (⟨i, hi, he⟩ | ⟨s', hs', hi⟩)
      · exact ⟨s, List.mem_cons_self s rest, i, hi, he⟩
      · exact ⟨s', List.mem_cons_of_mem s hs', hi⟩
    · rintro ⟨s', hs', i, hi, he⟩
      rcases List.mem_cons.mp hs' with rfl | hs''
      · exact Or.inl ⟨i, hi, he⟩
      · exact Or.inr ⟨s', hs'', i, hi, he⟩

theorem mem_regPairs :
    ∀ (ss : Snapshot) (e : String × String),
    e ∈ regPairs ss ↔ ∃ s ∈ ss, ∃ i ∈ s.instances, e = (i.id, s.name) := by
  intro ss
  induction ss with
  | nil =>
    intro e
    simp [regPairs]
  | cons s rest ih =>
    intro e
    rw [regPairs_cons, List.mem_append, List.mem_map, ih]
    constructor
    · rintro (⟨i, hi, he⟩ | ⟨s', hs', hi⟩)
      · exact ⟨s, List.mem_cons_self s rest, i, hi, he.symm⟩
      · exact ⟨s', List.mem_cons_of_mem s hs', hi⟩
    · rintro ⟨s', hs', i, hi, he⟩
      rcases List.mem_cons.mp hs' with rfl | hs''
      · exact Or.inl ⟨i, hi, he.symm⟩
      · exact Or.inr ⟨s', hs'', i, hi, he⟩

theorem regPairs_endpoints {ss : Snapshot} {e : String × String}
    (h : e ∈ regPairs ss) : e.1 ∈ snapInstIds ss ∧ e.2 ∈ snapSrvNames ss := by
  rcases (mem_regPairs ss e).mp h with ⟨s, hs, i, hi, rfl⟩
  constructor
  · exact (mem_snapInstIds ss i.id).mpr ⟨s, hs, i, hi, rfl⟩
  · exact (mem_snapSrvNames ss s.name).mpr ⟨s, hs, rfl⟩

/-- Derive a name-level characterisation from an entry-level one. -/
theorem names_iff_of_entries_iff {l l' : List (String × String)}
    {names : List String} {u : String}
    (h : ∀ m v, ((m, v) ∈ l' ↔
      ((m ∈ names ∧ v = u) ∨ ((m, v) ∈ l ∧ m ∉ names)))) :
    ∀ m, m ∈ l'.map Prod.fst ↔ (m ∈ names ∨ m ∈ l.map Prod.fst) := by
  intro m
  constructor
  · intro hm
    rcases exists_mem_of_mem_names hm with ⟨v, hv⟩
    rcases (h m v).mp hv with ⟨h1, -⟩ | ⟨h1, -⟩
    · exact Or.inl h1
    · exact Or.inr (mem_names_of_mem h1)
  · intro hm
    by_cases hn : m ∈ names
    · exact mem_names_of_mem ((h m u).mpr (Or.inl ⟨hn, rfl⟩))
    · rcases hm with hm | hm
      · exact absurd hm hn
      · rcases exists_mem_of_mem_names hm with ⟨v, hv⟩
        exact mem_names_of_mem ((h m v).mpr (Or.inr ⟨hv, hn⟩))

/-! ## Helper lemmas: `update_neo4j` -/

theorem update_neo4j_spec (ss : Snapshot) (u : String) (g : Graph) :
    ∃ gU, update_neo4j ss u g = some gU ∧
      (∀ m v, ((m, v) ∈ gU.services ↔
        ((m ∈ snapSrvNames ss ∧ v = u) ∨
          ((m, v) ∈ g.services ∧ m ∉ snapSrvNames ss)))) ∧
      (∀ m v, ((m, v) ∈ gU.instances ↔
        ((m ∈ snapInstIds ss ∧ v = u) ∨
          ((m, v) ∈ g.instances ∧ m ∉ snapInstIds ss)))) ∧
      (∀ e, e ∈ gU.regEdges ↔ (e ∈ g.regEdges ∨ e ∈ regPairs ss)) ∧
      (∀ e : String × String, e ∈ gU.depEdges ↔ (e ∈ g.depEdges ∨
        (∃ s ∈ ss, e.1 = s.name ∧ relationshipTag s.tags relTagKey = some e.2 ∧
          (e.2 ∈ snapSrvNames ss ∨ e.2 ∈ g.sNames)))) := by
  rcases upsertPass_spec ss g u with ⟨gP, hgP, hdepP, hsrvP, hinstP, hregP⟩
  have hnamesP : ∀ m, m ∈ gP.sNames ↔ (m ∈ snapSrvNames ss ∨ m ∈ g.sNames) :=
    names_iff_of_entries_iff hsrvP
  have hpresP : ∀ s ∈ ss, s.name ∈ gP.sNames := by
    intro s hs
    exact (hnamesP s.name).mpr (Or.inl ((mem_snapSrvNames ss s.name).mpr ⟨s, hs, rfl⟩))
  rcases edgePass_spec ss gP relTagKey hpresP with ⟨gU, hgU, hsrvE, hinstE, hregE, hdepE⟩
  refine ⟨gU, ?_, ?_, ?_, ?_, ?_⟩
  · simp only [update_neo4j, hgP, hgU]
  · intro m v
    rw [show gU.services = gP.services from hsrvE]
    exact hsrvP m v
  · intro m v
    rw [show gU.instances = gP.instances from hinstE]
    exact hinstP m v
  · intro e
    rw [show gU.regEdges = gP.regEdges from hregE]
    exact hregP e
  · intro e
    rw [hdepE e, hdepP]
    constructor
    · rintro (he | ⟨s, hs, h1, h2, h3⟩)
      · exact Or.inl he
      · exact Or.inr ⟨s, hs, h1, h2, (hnamesP e.2).mp h3⟩
    · rintro (he | ⟨s, hs, h1, h2, h3⟩)
      · exact Or.inl he
      · exact Or.inr ⟨s, hs, h1, h2, (hnamesP e.2).mpr h3⟩

/-! ## Helper lemmas: full reconciliation under a fresh transaction id -/

theorem names_iff_of_pure_entries {l' : List (String × String)}
    {names : List String} {u : String}
    (h : ∀ m v, ((m, v) ∈ l' ↔ (m ∈ names ∧ v = u))) :
    ∀ m, m ∈ l'.map Prod.fst ↔ m ∈ names := by
  intro m
  constructor
  · intro hm
    rcases exists_mem_of_mem_names hm with ⟨v, hv⟩
    exact ((h m v).mp hv).1
  · intro hm
    exact mem_names_of_mem ((h m u).mpr ⟨hm, rfl⟩)

theorem reconcile_spec (ss : Snapshot) (u : String) (g : Graph)
    (hf : FreshStamp u g) (hc : Graph.Closed g) :
    ∃ g', reconcile ss u g = some g' ∧
      (∀ m v, ((m, v) ∈ g'.services ↔ (m ∈ snapSrvNames ss ∧ v = u))) ∧
      (∀ m v, ((m, v) ∈ g'.instances ↔ (m ∈ snapInstIds ss ∧ v = u))) ∧
      (∀ e : String × String, e ∈ g'.regEdges ↔
        ((e ∈ g.regEdges ∨ e ∈ regPairs ss) ∧
          e.1 ∈ snapInstIds ss ∧ e.2 ∈ snapSrvNames ss)) ∧
      (∀ e : String × String, e ∈ g'.depEdges ↔
        ((e ∈ g.depEdges ∨ DepFrom ss e) ∧
          e.1 ∈ snapSrvNames ss ∧ e.2 ∈ snapSrvNames ss)) := by
  rcases update_neo4j_spec ss u g with ⟨gU, hgU, hS, hI, hR, hD⟩
  have hA1s : ∀ m, m ∈ snapSrvNames ss → staleIn gU.services u m = false := by
    intro m hm
    rw [staleIn_eq_false_iff]
    intro q hq hqm
    rcases (hS q.1 q.2).mp hq with ⟨-, hqu⟩ | ⟨-, hqn⟩
    · exact hqu
    · exact absurd (hqm ▸ hm) hqn
  have hA2s : ∀ m, m ∈ g.sNames → m ∉ snapSrvNames ss →
      staleIn gU.services u m = true := by
    intro m hm hns
    rcases exists_mem_of_mem_names hm with ⟨w, hw⟩
    have hwu : w ≠ u := hf.1 (m, w) hw
    have : (m, w) ∈ gU.services := (hS m w).mpr (Or.inr ⟨hw, hns⟩)
    exact (staleIn_eq_true_iff _ _ _).mpr ⟨(m, w), this, rfl, hwu⟩
  have hA1i : ∀ m, m ∈ snapInstIds ss → staleIn gU.instances u m = false := by
    intro m hm
    rw [staleIn_eq_false_iff]
    intro q hq hqm
    rcases (hI q.1 q.2).mp hq with ⟨-, hqu⟩ | ⟨-, hqn⟩
    · exact hqu
    · exact absurd (hqm ▸ hm) hqn
  have hA2i : ∀ m, m ∈ g.iNames → m ∉ snapInstIds ss →
      staleIn gU.instances u m = true := by
    intro m hm hns
    rcases exists_mem_of_mem_names hm with ⟨w, hw⟩
    have hwu : w ≠ u := hf.2 (m, w) hw
    have : (m, w) ∈ gU.instances := (hI m w).mpr (Or.inr ⟨hw, hns⟩)
    exact (staleIn_eq_true_iff _ _ _).mpr ⟨(m, w), this, rfl, hwu⟩
  refine ⟨clean_neo4j u gU, by simp only [reconcile, hgU], ?_, ?_, ?_, ?_⟩
  · intro m v
    rw [mem_clean_services]
    constructor
    · rintro ⟨hmem, hstale⟩
      rcases (hS m v).mp hmem with ⟨h1, h2⟩ | ⟨h1, h2⟩
      · exact ⟨h1, h2⟩
      · have hmn : m ∈ g.sNames := mem_names_of_mem h1
        rw [hA2s m hmn h2] at hstale
        exact Bool.noConfusion hstale
    · rintro ⟨hm, hv⟩
      exact ⟨(hS m v).mpr (Or.inl ⟨hm, hv⟩), hA1s m hm⟩
  · intro m v
    rw [mem_clean_instances]
    constructor
    · rintro ⟨hmem, hstale⟩
      rcases (hI m v).mp hmem with ⟨h1, h2⟩ | ⟨h1, h2⟩
      · exact ⟨h1, h2⟩
      · have hmn : m ∈ g.iNames := mem_names_of_mem h1
        rw [hA2i m hmn h2] at hstale
        exact Bool.noConfusion hstale
    · rintro ⟨hm, hv⟩
      exact ⟨(hI m v).mpr (Or.inl ⟨hm, hv⟩), hA1i m hm⟩
  · intro e
    rw [mem_clean_reg]
    constructor
    · rintro ⟨hmem, hstI, hstS⟩
      have hsrc : e ∈ g.regEdges ∨ e ∈ regPairs ss := (hR e).mp hmem
      have h1 : e.1 ∈ snapInstIds ss := by
        rcases hsrc with he | he
        · by_contra hn
          rw [hA2i e.1 (hc.1 e he) hn] at hstI
          exact Bool.noConfusion hstI
        · exact (regPairs_endpoints he).1
      have h2 : e.2 ∈ snapSrvNames ss := by
        rcases hsrc with he | he
        · by_contra hn
          rw [hA2s e.2 (hc.2.1 e he) hn] at hstS
          exact Bool.noConfusion hstS
        · exact (regPairs_endpoints he).2
      exact ⟨hsrc, h1, h2⟩
    · rintro ⟨hsrc, h1, h2⟩
      exact ⟨(hR e).mpr hsrc, hA1i e.1 h1, hA1s e.2 h2⟩
  · intro e
    rw [mem_clean_dep]
    constructor
    · rintro ⟨hmem, hst1, hst2⟩
      have hsrc := (hD e).mp hmem
      have h1 : e.1 ∈ snapSrvNames ss := by
        rcases hsrc with he | ⟨s, hs, hn, -, -⟩
        · by_contra hn
          rw [hA2s e.1 (hc.2.2.1 e he) hn] at hst1
          exact Bool.noConfusion hst1
        · exact (mem_snapSrvNames ss e.1).mpr ⟨s, hs, hn.symm⟩
      have h2 : e.2 ∈ snapSrvNames ss := by
        by_contra hn2
        have hgn : e.2 ∈ g.sNames := by
          rcases hsrc with he | ⟨s, hs, -, -, h3⟩
          · exact hc.2.2.2 e he
          · rcases h3 with h3 | h3
            · exact absurd h3 hn2
            · exact h3
        rw [hA2s e.2 hgn hn2] at hst2
        exact Bool.noConfusion hst2
      refine ⟨?_, h1, h2⟩
      rcases hsrc with he | ⟨s, hs, hn, ht, -⟩
      · exact Or.inl he
      · exact Or.inr ⟨s, hs, hn, ht⟩
    · rintro ⟨hsrc, h1, h2⟩
      refine ⟨?_, hA1s e.1 h1, hA1s e.2 h2⟩
      rcases hsrc with he | ⟨s, hs, hn, ht⟩
      · exact (hD e).mpr (Or.inl he)
      · exact (hD e).mpr (Or.inr ⟨s, hs, hn, ht, Or.inl h2⟩)

theorem reconcile_total (ss : Snapshot) (u : String) (g : Graph) :
    ∃ g', reconcile ss u g = some g' := by
  rcases update_neo4j_spec ss u g with ⟨gU, hgU, -, -, -, -⟩
  exact ⟨clean_neo4j u gU, by simp only [reconcile, hgU]⟩

theorem reconcile_stamped {ss : Snapshot} {u : String} {g g1 : Graph}
    (h : reconcile ss u g = some g1) : Stamped u g1 := by
  unfold reconcile at h
  cases hU : update_neo4j ss u g with
  | none => rw [hU] at h ; exact Option.noConfusion h
  | some gU =>
    rw [hU, Option.some.injEq] at h
    rw [← h]
    exact clean_stamped u gU

theorem stamped_fresh {t u : String} {g : Graph} (h : Stamped u g) (hne : u ≠ t) :
    FreshStamp t g := by
  constructor
  · intro p hp
    rw [h.1 p hp]
    exact hne
  · intro p hp
    rw [h.2 p hp]
    exact hne

theorem reconcile_closed {ss : Snapshot} {u : String} {g g1 : Graph}
    (hf : FreshStamp u g) (hc : Graph.Closed g)
    (h : reconcile ss u g = some g1) : Graph.Closed g1 := by
  rcases reconcile_spec ss u g hf hc with ⟨g2, hg2, hS, hI, hR, hD⟩
  have hgg : g2 = g1 := by
    rw [h] at hg2
    exact (Option.some.inj hg2).symm
  subst hgg
  have hni := names_iff_of_pure_entries hI
  have hns := names_iff_of_pure_entries hS
  refine ⟨?_, ?_, ?_, ?_⟩
  · intro e he
    exact (hni e.1).mpr ((hR e).mp he).2.1
  · intro e he
    exact (hns e.2).mpr ((hR e).mp he).2.2
  · intro e he
    exact (hns e.1).mpr ((hD e).mp he).2.1
  · intro e he
    exact (hns e.2).mpr ((hD e).mp he).2.2

theorem reconcile_covers {ss : Snapshot} {u : String} {g g1 : Graph}
    (h : reconcile ss u g = some g1) : Covers ss u g1 := by
  rcases update_neo4j_spec ss u g with ⟨gU, hgU, hS, hI, hR, hD⟩
  have hg1 : g1 = clean_neo4j u gU := by
    unfold reconcile at h
    rw [hgU, Option.some.injEq] at h
    exact h.symm
  subst hg1
  have hA1s : ∀ m, m ∈ snapSrvNames ss → staleIn gU.services u m = false := by
    intro m hm
    rw [staleIn_eq_false_iff]
    intro q hq hqm
    rcases (hS q.1 q.2).mp hq with ⟨-, hqu⟩ | ⟨-, hqn⟩
    · exact hqu
    · exact absurd (hqm ▸ hm) hqn
  have hA1i : ∀ m, m ∈ snapInstIds ss → staleIn gU.instances u m = false := by
    intro m hm
    rw [staleIn_eq_false_iff]
    intro q hq hqm
    rcases (hI q.1 q.2).mp hq with ⟨-, hqu⟩ | ⟨-, hqn⟩
    · exact hqu
    · exact absurd (hqm ▸ hm) hqn
  have hnames : ∀ m, m ∈ gU.sNames ↔ (m ∈ snapSrvNames ss ∨ m ∈ g.sNames) :=
    names_iff_of_entries_iff hS
  refine ⟨?_, ?_, ?_, ?_⟩
  · intro s hs
    have hsnap : s.name ∈ snapSrvNames ss := (mem_snapSrvNames ss s.name).mpr ⟨s, hs, rfl⟩
    have hmem : (s.name, u) ∈ (clean_neo4j u gU).services :=
      (mem_clean_services u gU s.name u).mpr
        ⟨(hS s.name u).mpr (Or.inl ⟨hsnap, rfl⟩), hA1s s.name hsnap⟩
    refine alookup_eq_some_of_mem _ _ _ hmem ?_
    intro w hw
    have := ((mem_clean_services u gU s.name w).mp hw).1
    rcases (hS s.name w).mp this with ⟨-, hwu⟩ | ⟨-, hno⟩
    · exact hwu
    · exact absurd hsnap hno
  · intro s hs i hi
    have hsnap : i.id ∈ snapInstIds ss := (mem_snapInstIds ss i.id).mpr ⟨s, hs, i, hi, rfl⟩
    have hmem : (i.id, u) ∈ (clean_neo4j u gU).instances :=
      (mem_clean_instances u gU i.id u).mpr
        ⟨(hI i.id u).mpr (Or.inl ⟨hsnap, rfl⟩), hA1i i.id hsnap⟩
    refine alookup_eq_some_of_mem _ _ _ hmem ?_
    intro w hw
    have := ((mem_clean_instances u gU i.id w).mp hw).1
    rcases (hI i.id w).mp this with ⟨-, hwu⟩ | ⟨-, hno⟩
    · exact hwu
    · exact absurd hsnap hno
  · intro s hs i hi
    have hpair : (i.id, s.name) ∈ regPairs ss :=
      (mem_regPairs ss (i.id, s.name)).mpr ⟨s, hs, i, hi, rfl⟩
    refine (mem_clean_reg u gU (i.id, s.name)).mpr
      ⟨(hR (i.id, s.name)).mpr (Or.inr hpair), ?_, ?_⟩
    · exact hA1i i.id ((mem_snapInstIds ss i.id).mpr ⟨s, hs, i, hi, rfl⟩)
    · exact hA1s s.name ((mem_snapSrvNames ss s.name).mpr ⟨s, hs, rfl⟩)
  · intro s hs t ht htg
    have hsnap : s.name ∈ snapSrvNames ss := (mem_snapSrvNames ss s.name).mpr ⟨s, hs, rfl⟩
    rcases exists_mem_of_mem_names htg with ⟨w, hw⟩
    have hwc := (mem_clean_services u gU t w).mp hw
    have htU : t ∈ gU.sNames := mem_names_of_mem hwc.1
    refine (mem_clean_dep u gU (s.name, t)).mpr ⟨?_, hA1s s.name hsnap, hwc.2⟩
    exact (hD (s.name, t)).mpr (Or.inr ⟨s, hs, rfl, ht, (hnames t).mp htU⟩)

/-! ## Helper lemmas: a second run over an already reconciled state -/

theorem map_id_of_forall {α : Type} {l : List α} {f : α → α}
    (h : ∀ a ∈ l, f a = a) : l.map f = l := by
  induction l with
  | nil => rfl
  | cons a as ih =>
    rw [List.map_cons, h a (List.mem_cons_self a as),
      ih (fun b hb => h b (List.mem_cons_of_mem a hb))]

theorem filter_id_of_forall {α : Type} {l : List α} {p : α → Bool}
    (h : ∀ a ∈ l, p a = true) : l.filter p = l := by
  induction l with
  | nil => rfl
  | cons a as ih =>
    rw [List.filter_cons, if_pos (h a (List.mem_cons_self a as)),
      ih (fun b hb => h b (List.mem_cons_of_mem a hb))]

theorem merge_s_id {g : Graph} {n u : String}
    (h : alookup g.services n = some u)
    (hall : ∀ p ∈ g.services, p.2 = u) : merge_s g n u = g := by
  unfold merge_s
  rw [h]
  have : g.services.map (fun p => if p.1 = n then (p.1, u) else p) = g.services := by
    refine map_id_of_forall (fun p hp => ?_)
    by_cases hpn : p.1 = n
    · rw [if_pos hpn, ← hall p hp]
    · rw [if_neg hpn]
  rw [this]

theorem upsert_instance_id {g : Graph} {n u : String}
    (h : alookup g.instances n = some u)
    (hall : ∀ p ∈ g.instances, p.2 = u) : upsert_instance_node g n u = g := by
  unfold upsert_instance_node
  rw [h]
  have : g.instances.map (fun p => if p.1 = n then (p.1, u) else p) = g.instances := by
    refine map_id_of_forall (fun p hp => ?_)
    by_cases hpn : p.1 = n
    · rw [if_pos hpn, ← hall p hp]
    · rw [if_neg hpn]
  rw [this]

theorem connectReg_id {g : Graph} {i s : String}
    (h : (i, s) ∈ g.regEdges) : connectReg g i s = g := by
  unfold connectReg
  rw [if_pos h]

theorem connectDep_id {g : Graph} {a b : String}
    (h : (a, b) ∈ g.depEdges) : connectDep g a b = g := by
  unfold connectDep
  rw [if_pos h]

theorem merge_instance_id {g : Graph} {sname iname u : String}
    (hs : alookup g.services sname = some u)
    (hi : alookup g.instances iname = some u)
    (hall : ∀ p ∈ g.instances, p.2 = u)
    (hreg : (iname, sname) ∈ g.regEdges) :
    merge_instance g sname iname u = some g := by
  unfold merge_instance
  rw [hs, upsert_instance_id hi hall, connectReg_id hreg]

theorem mergeInstances_id :
    ∀ (insts : List InstanceRec) (g : Graph) (sname u : String),
    alookup g.services sname = some u →
    (∀ p ∈ g.instances, p.2 = u) →
    (∀ i ∈ insts, alookup g.instances i.id = some u) →
    (∀ i ∈ insts, (i.id, sname) ∈ g.regEdges) →
    mergeInstances g sname insts u = some g := by
  intro insts
  induction insts with
  | nil => intro g sname u _ _ _ _ ; rfl
  | cons i rest ih =>
    intro g sname u hs hall hl hr
    have hstep : merge_instance g sname i.id u = some g :=
      merge_instance_id hs (hl i (List.mem_cons_self i rest)) hall
        (hr i (List.mem_cons_self i rest))
    simp only [mergeInstances, hstep]
    exact ih g sname u hs hall
      (fun j hj => hl j (List.mem_cons_of_mem i hj))
      (fun j hj => hr j (List.mem_cons_of_mem i hj))

theorem upsertPass_id :
    ∀ (ss : Snapshot) (g : Graph) (u : String),
    Stamped u g → Covers ss u g →
    upsertPass g ss u = some g := by
  intro ss
  induction ss with
  | nil => intro g u _ _ ; rfl
  | cons s rest ih =>
    intro g u hst hcov
    have hs : alookup g.services s.name = some u :=
      hcov.1 s (List.mem_cons_self s rest)
    have hms : merge_s g s.name u = g := merge_s_id hs hst.1
    have hmi : mergeInstances g s.name s.instances u = some g :=
      mergeInstances_id s.instances g s.name u hs hst.2
        (fun i hi => hcov.2.1 s (List.mem_cons_self s rest) i hi)
        (fun i hi => hcov.2.2.1 s (List.mem_cons_self s rest) i hi)
    simp only [upsertPass, hms, hmi]
    refine ih g u hst ⟨?_, ?_, ?_, ?_⟩
    · exact fun s' hs' => hcov.1 s' (List.mem_cons_of_mem s hs')
    · exact fun s' hs' => hcov.2.1 s' (List.mem_cons_of_mem s hs')
    · exact fun s' hs' => hcov.2.2.1 s' (List.mem_cons_of_mem s hs')
    · exact fun s' hs' => hcov.2.2.2 s' (List.mem_cons_of_mem s hs')

theorem connect_service_rel_id {g : Graph} {s : ServiceRec} {u : String}
    (hs : alookup g.services s.name = some u)
    (hdep : ∀ t, relationshipTag s.tags relTagKey = some t →
      t ∈ g.sNames → (s.name, t) ∈ g.depEdges) :
    connect_service_rel_to_service g s relTagKey = some g := by
  cases ht : relationshipTag s.tags relTagKey with
  | none => simp only [connect_service_rel_to_service, hs, ht]
  | some t =>
    cases htr : alookup g.services t with
    | none => simp only [connect_service_rel_to_service, hs, ht, htr]
    | some w =>
      have htn : t ∈ g.sNames := by
        rw [show g.sNames = g.services.map Prod.fst from rfl, ← alookup_isSome_iff, htr]
        rfl
      simp only [connect_service_rel_to_service, hs, ht, htr, Option.some.injEq]
      exact connectDep_id (hdep t ht htn)

theorem edgePass_id :
    ∀ (ss : Snapshot) (g : Graph) (u : String),
    (∀ s ∈ ss, alookup g.services s.name = some u) →
    (∀ s ∈ ss, ∀ t, relationshipTag s.tags relTagKey = some t →
      t ∈ g.sNames → (s.name, t) ∈ g.depEdges) →
    edgePass g ss relTagKey = some g := by
  intro ss
  induction ss with
  | nil => intro g u _ _ ; rfl
  | cons s rest ih =>
    intro g u hs hdep
    have hstep : connect_service_rel_to_service g s relTagKey = some g :=
      connect_service_rel_id (hs s (List.mem_cons_self s rest))
        (hdep s (List.mem_cons_self s rest))
    simp only [edgePass, hstep]
    exact ih g u (fun s' hs' => hs s' (List.mem_cons_of_mem s hs'))
      (fun s' hs' => hdep s' (List.mem_cons_of_mem s hs'))

theorem clean_id {g : Graph} {u : String} (h : Stamped u g) : clean_neo4j u g = g := by
  obtain ⟨gs, gi, gr, gd⟩ := g
  have hsrv : ∀ m, staleIn gs u m = false := by
    intro m
    rw [staleIn_eq_false_iff]
    exact fun q hq _ => h.1 q hq
  have hinst : ∀ m, staleIn gi u m = false := by
    intro m
    rw [staleIn_eq_false_iff]
    exact fun q hq _ => h.2 q hq
  rw [clean_neo4j_eq]
  congr 1
  · exact filter_id_of_forall (fun p _ => by rw [hsrv p.1] ; rfl)
  · exact filter_id_of_forall (fun p _ => by rw [hinst p.1] ; rfl)
  · rw [show List.filter (fun e => !staleIn gi u e.1) gr = gr from
      filter_id_of_forall (fun e _ => by rw [hinst e.1] ; rfl)]
    exact filter_id_of_forall (fun e _ => by rw [hsrv e.2] ; rfl)
  · exact filter_id_of_forall (fun e _ => by rw [hsrv e.1, hsrv e.2] ; rfl)

/-- **C1**: reconciliation is idempotent.  If `reconcile ss T g = some g1`
(first run: upsert pass, edge pass, prune pass), then running the whole
reconciliation again with the same snapshot and the same transaction id
leaves `g1` exactly as it is: the second run's upsert pass changes no
node (it returns `g1` itself), its edge pass creates no new edge (it
returns `g1` itself), its prune pass deletes nothing (`clean_neo4j` is
the identity on `g1`), and hence the second `reconcile` returns `g1`
unchanged. -/
theorem reconcile_idempotent (ss : Snapshot) (T : String) (g g1 : Graph)
    (h1 : reconcile ss T g = some g1) :
    upsertPass g1 ss T = some g1 ∧
    edgePass g1 ss relTagKey = some g1 ∧
    clean_neo4j T g1 = g1 ∧
    reconcile ss T g1 = some g1 := by
  have hst : Stamped T g1 := reconcile_stamped h1
  have hcov : Covers ss T g1 := reconcile_covers h1
  have hup : upsertPass g1 ss T = some g1 := upsertPass_id ss g1 T hst hcov
  have hep : edgePass g1 ss relTagKey = some g1 :=
    edgePass_id ss g1 T hcov.1 hcov.2.2.2
  have hcl : clean_neo4j T g1 = g1 := clean_id hst
  refine ⟨hup, hep, hcl, ?_⟩
  simp only [reconcile, update_neo4j, hup, hep, hcl]

/-- Witness for C1: a concrete one-service, one-instance snapshot
reconciled from the empty graph; the second run returns the same state. -/
theorem reconcile_idempotent_witness :
    reconcile [⟨"A", [⟨"i"⟩], []⟩] "t1" Graph.empty =
      some ⟨[("A", "t1")], [("i", "t1")], [("i", "A")], []⟩ ∧
    reconcile [⟨"A", [⟨"i"⟩], []⟩] "t1"
        ⟨[("A", "t1")], [("i", "t1")], [("i", "A")], []⟩ =
      some ⟨[("A", "t1")], [("i", "t1")], [("i", "A")], []⟩ :=
  ⟨rfl, (reconcile_idempotent [⟨"A", [⟨"i"⟩], []⟩] "t1" Graph.empty
    ⟨[("A", "t1")], [("i", "t1")], [("i", "A")], []⟩ rfl).2.2.2⟩

/-! ## Helper lemmas: re-reconciling an unchanged snapshot under a new id -/

theorem map_congr_mine {α β : Type} {l : List α} {f h : α → β}
    (hfh : ∀ a ∈ l, f a = h a) : l.map f = l.map h := by
  induction l with
  | nil => rfl
  | cons a as ih =>
    rw [List.map_cons, List.map_cons, hfh a (List.mem_cons_self a as),
      ih (fun b hb => hfh b (List.mem_cons_of_mem a hb))]

theorem update_preserves_names (l : List (String × String)) (x u : String) :
    (l.map (fun p => if p.1 = x then (p.1, u) else p)).map Prod.fst =
      l.map Prod.fst := by
  rw [List.map_map]
  refine map_congr_mine (fun p _ => ?_)
  by_cases hp : p.1 = x
  · simp [hp]
  · simp [hp]

theorem alookup_restamp (l : List (String × String)) (t m : String) :
    alookup (l.map (fun p => (p.1, t))) m = (alookup l m).map (fun _ => t) := by
  induction l with
  | nil => rfl
  | cons p ps ih =>
    by_cases hp : p.1 = m
    · simp [alookup, hp]
    · simp only [List.map_cons, alookup, hp, if_false]
      exact ih

theorem mergeInstances_restamp :
    ∀ (insts : List InstanceRec) (g : Graph) (sname u : String),
    (alookup g.services sname).isSome = true →
    (∀ i ∈ insts, i.id ∈ g.iNames) →
    (∀ i ∈ insts, (i.id, sname) ∈ g.regEdges) →
    mergeInstances g sname insts u = some
      ⟨g.services,
       g.instances.map (fun p =>
         if p.1 ∈ insts.map InstanceRec.id then (p.1, u) else p),
       g.regEdges, g.depEdges⟩ := by
  intro insts
  induction insts with
  | nil =>
    intro g sname u _ _ _
    show some g = _
    rw [Option.some.injEq]
    obtain ⟨gs, gi, gr, gd⟩ := g
    have : gi.map (fun p => if p.1 ∈ ([] : List InstanceRec).map InstanceRec.id
        then (p.1, u) else p) = gi := by
      refine map_id_of_forall (fun p _ => ?_)
      simp
    rw [this]
  | cons i rest ih =>
    intro g sname u hs hin hreg
    have hii : i.id ∈ g.iNames := hin i (List.mem_cons_self i rest)
    rcases exists_mem_of_mem_names hii with ⟨w, hw⟩
    have hlk : (alookup g.instances i.id).isSome = true := by
      rw [alookup_isSome_iff]
      exact hii
    cases hlkv : alookup g.instances i.id with
    | none => rw [hlkv] at hlk ; simp at hlk
    | some w' =>
      have hupd : (upsert_instance_node g i.id u).instances =
          g.instances.map (fun p => if p.1 = i.id then (p.1, u) else p) :=
        upsert_instances_of_some u hlkv
      have hreg2 : (i.id, sname) ∈ (upsert_instance_node g i.id u).regEdges := by
        rw [(upsert_instance_node_fields g i.id u).2.1]
        exact hreg i (List.mem_cons_self i rest)
      have hstep : merge_instance g sname i.id u =
          some (upsert_instance_node g i.id u) := by
        cases hsv : alookup g.services sname with
        | none => rw [hsv] at hs ; simp at hs
        | some w2 =>
          simp only [merge_instance, hsv, Option.some.injEq]
          exact connectReg_id hreg2
      have hsrv2 : (upsert_instance_node g i.id u).services = g.services :=
        (upsert_instance_node_fields g i.id u).1
      have hs2 : (alookup (upsert_instance_node g i.id u).services sname).isSome = true := by
        rwa [hsrv2]
      have hin2 : ∀ j ∈ rest, j.id ∈ (upsert_instance_node g i.id u).iNames := by
        intro j hj
        show j.id ∈ (upsert_instance_node g i.id u).instances.map Prod.fst
        rw [hupd, update_preserves_names]
        exact hin j (List.mem_cons_of_mem i hj)
      have hreg3 : ∀ j ∈ rest, (j.id, sname) ∈ (upsert_instance_node g i.id u).regEdges := by
        intro j hj
        rw [(upsert_instance_node_fields g i.id u).2.1]
        exact hreg j (List.mem_cons_of_mem i hj)
      have := ih (upsert_instance_node g i.id u) sname u hs2 hin2 hreg3
      simp only [mergeInstances, hstep, this, Option.some.injEq]
      rw [hsrv2, hupd, (upsert_instance_node_fields g i.id u).2.1,
        (upsert_instance_node_fields g i.id u).2.2]
      have hmaps : (g.instances.map (fun p => if p.1 = i.id then (p.1, u) else p)).map
          (fun p => if p.1 ∈ rest.map InstanceRec.id then (p.1, u) else p) =
          g.instances.map (fun p =>
            if p.1 ∈ (i :: rest).map InstanceRec.id then (p.1, u) else p) := by
        rw [List.map_map]
        refine map_congr_mine (fun p _ => ?_)
        show (fun p => if p.1 ∈ rest.map InstanceRec.id then (p.1, u) else p)
          (if p.1 = i.id then (p.1, u) else p) =
          if p.1 ∈ (i :: rest).map InstanceRec.id then (p.1, u) else p
        by_cases h1 : p.1 = i.id
        · by_cases h2 : p.1 ∈ rest.map InstanceRec.id
          · simp [h1, h2]
          · simp [h1, h2]
        · by_cases h2 : p.1 ∈ rest.map InstanceRec.id
          · simp [h1, h2]
          · simp [h1, h2]
      rw [hmaps]

theorem upsertPass_restamp :
    ∀ (ss : Snapshot) (g : Graph) (u : String),
    (∀ s ∈ ss, s.name ∈ g.sNames) →
    (∀ s ∈ ss, ∀ i ∈ s.instances, i.id ∈ g.iNames) →
    (∀ s ∈ ss, ∀ i ∈ s.instances, (i.id, s.name) ∈ g.regEdges) →
    upsertPass g ss u = some
      ⟨g.services.map (fun p => if p.1 ∈ snapSrvNames ss then (p.1, u) else p),
       g.instances.map (fun p => if p.1 ∈ snapInstIds ss then (p.1, u) else p),
       g.regEdges, g.depEdges⟩ := by
  intro ss
  induction ss with
  | nil =>
    intro g u _ _ _
    show some g = _
    rw [Option.some.injEq]
    obtain ⟨gs, gi, gr, gd⟩ := g
    have h1 : gs.map (fun p => if p.1 ∈ snapSrvNames [] then (p.1, u) else p) = gs :=
      map_id_of_forall (fun p _ => by simp [snapSrvNames])
    have h2 : gi.map (fun p => if p.1 ∈ snapInstIds [] then (p.1, u) else p) = gi :=
      map_id_of_forall (fun p _ => by simp [snapInstIds])
    rw [h1, h2]
  | cons s rest ih =>
    intro g u hsn hin hreg
    have hsmem : s.name ∈ g.sNames := hsn s (List.mem_cons_self s rest)
    have hlk : (alookup g.services s.name).isSome = true := by
      rw [alookup_isSome_iff]
      exact hsmem
    cases hlkv : alookup g.services s.name with
    | none => rw [hlkv] at hlk ; simp at hlk
    | some w =>
      have hms : (merge_s g s.name u).services =
          g.services.map (fun p => if p.1 = s.name then (p.1, u) else p) :=
        merge_s_services_of_some u hlkv
      have hmsf := merge_s_fields g s.name u
      have hs1 : (alookup (merge_s g s.name u).services s.name).isSome = true := by
        rw [alookup_isSome_iff]
        show s.name ∈ (merge_s g s.name u).services.map Prod.fst
        rw [hms, update_preserves_names]
        exact hsmem
      have hin1 : ∀ i ∈ s.instances, i.id ∈ (merge_s g s.name u).iNames := by
        intro i hi
        show i.id ∈ (merge_s g s.name u).instances.map Prod.fst
        rw [hmsf.1]
        exact hin s (List.mem_cons_self s rest) i hi
      have hreg1 : ∀ i ∈ s.instances, (i.id, s.name) ∈ (merge_s g s.name u).regEdges := by
        intro i hi
        rw [hmsf.2.1]
        exact hreg s (List.mem_cons_self s rest) i hi
      have hmi := mergeInstances_restamp s.instances (merge_s g s.name u) s.name u
        hs1 hin1 hreg1
      set g2 : Graph :=
        ⟨(merge_s g s.name u).services,
         (merge_s g s.name u).instances.map (fun p =>
           if p.1 ∈ s.instances.map InstanceRec.id then (p.1, u) else p),
         (merge_s g s.name u).regEdges, (merge_s g s.name u).depEdges⟩ with hg2
      have hsn2 : ∀ s' ∈ rest, s'.name ∈ g2.sNames := by
        intro s' hs'
        show s'.name ∈ g2.services.map Prod.fst
        rw [hg2]
        show s'.name ∈ (merge_s g s.name u).services.map Prod.fst
        rw [hms, update_preserves_names]
        exact hsn s' (List.mem_cons_of_mem s hs')
      have hin2 : ∀ s' ∈ rest, ∀ i ∈ s'.instances, i.id ∈ g2.iNames := by
        intro s' hs' i hi
        show i.id ∈ g2.instances.map Prod.fst
        rw [hg2]
        show i.id ∈ ((merge_s g s.name u).instances.map (fun p =>
          if p.1 ∈ s.instances.map InstanceRec.id then (p.1, u) else p)).map Prod.fst
        rw [List.map_map]
        have : ∀ p : String × String,
            (Prod.fst ∘ fun p => if p.1 ∈ s.instances.map InstanceRec.id
              then (p.1, u) else p) p = p.1 := by
          intro p
          show (if p.1 ∈ s.instances.map InstanceRec.id then (p.1, u) else p).1 = p.1
          by_cases hp : p.1 ∈ s.instances.map InstanceRec.id
          · rw [if_pos hp]
          · rw [if_neg hp]
        rw [map_congr_mine (fun p _ => this p)]
        rw [show (merge_s g s.name u).instances = g.instances from hmsf.1]
        exact hin s' (List.mem_cons_of_mem s hs') i hi
      have hreg2 : ∀ s' ∈ rest, ∀ i ∈ s'.instances, (i.id, s'.name) ∈ g2.regEdges := by
        intro s' hs' i hi
        rw [hg2]
        show (i.id, s'.name) ∈ (merge_s g s.name u).regEdges
        rw [hmsf.2.1]
        exact hreg s' (List.mem_cons_of_mem s hs') i hi
      have hihr := ih g2 u hsn2 hin2 hreg2
      simp only [upsertPass, hmi, hihr, Option.some.injEq]
      congr 1
      · rw [hms, List.map_map]
        refine map_congr_mine (fun p _ => ?_)
        show (fun p => if p.1 ∈ snapSrvNames rest then (p.1, u) else p)
          (if p.1 = s.name then (p.1, u) else p) =
          if p.1 ∈ snapSrvNames (s :: rest) then (p.1, u) else p
        rw [snapSrvNames_cons]
        by_cases h1 : p.1 = s.name
        · by_cases h2 : p.1 ∈ snapSrvNames rest
          · simp [h1, h2]
          · simp [h1, h2]
        · by_cases h2 : p.1 ∈ snapSrvNames rest
          · simp [h1, h2, List.mem_cons]
          · simp [h1, h2, List.mem_cons]
      · rw [hmsf.1, List.map_map]
        refine map_congr_mine (fun p _ => ?_)
        show (fun p => if p.1 ∈ snapInstIds rest then (p.1, u) else p)
          (if p.1 ∈ s.instances.map InstanceRec.id then (p.1, u) else p) =
          if p.1 ∈ snapInstIds (s :: rest) then (p.1, u) else p
        rw [snapInstIds_cons]
        by_cases h1 : p.1 ∈ s.instances.map InstanceRec.id
        · by_cases h2 : p.1 ∈ snapInstIds rest
          · simp [h1, h2]
          · simp [h1, h2]
        · by_cases h2 : p.1 ∈ snapInstIds rest
          · simp [h1, h2, List.mem_append]
          · simp [h1, h2, List.mem_append]
      · exact hmsf.2.1
      · exact hmsf.2.2

theorem restamp_sNames (g : Graph) (t : String) :
    (g.restamp t).sNames = g.sNames := by
  show (g.services.map (fun p => (p.1, t))).map Prod.fst = g.services.map Prod.fst
  rw [List.map_map]
  exact map_congr_mine (fun p _ => rfl)

theorem restamp_iNames (g : Graph) (t : String) :
    (g.restamp t).iNames = g.iNames := by
  show (g.instances.map (fun p => (p.1, t))).map Prod.fst = g.instances.map Prod.fst
  rw [List.map_map]
  exact map_congr_mine (fun p _ => rfl)

theorem stamped_restamp (g : Graph) (t : String) : Stamped t (g.restamp t) := by
  constructor
  · intro p hp
    rcases List.mem_map.mp hp with ⟨q, -, hq⟩
    rw [← hq]
  · intro p hp
    rcases List.mem_map.mp hp with ⟨q, -, hq⟩
    rw [← hq]

/-- Node-set characterisation of a reconciliation under a fresh
transaction id: the surviving nodes are exactly the snapshot's entities,
all stamped with the transaction id. -/
theorem reconcile_nodes {ss : Snapshot} {u : String} {g g1 : Graph}
    (hf : FreshStamp u g) (h : reconcile ss u g = some g1) :
    (∀ m v, ((m, v) ∈ g1.services ↔ (m ∈ snapSrvNames ss ∧ v = u))) ∧
    (∀ m v, ((m, v) ∈ g1.instances ↔ (m ∈ snapInstIds ss ∧ v = u))) := by
  rcases update_neo4j_spec ss u g with ⟨gU, hgU, hS, hI, -, -⟩
  have hg1 : g1 = clean_neo4j u gU := by
    unfold reconcile at h
    rw [hgU, Option.some.injEq] at h
    exact h.symm
  subst hg1
  have hA1s : ∀ m, m ∈ snapSrvNames ss → staleIn gU.services u m = false := by
    intro m hm
    rw [staleIn_eq_false_iff]
    intro q hq hqm
    rcases (hS q.1 q.2).mp hq with ⟨-, hqu⟩ | ⟨-, hqn⟩
    · exact hqu
    · exact absurd (hqm ▸ hm) hqn
  have hA1i : ∀ m, m ∈ snapInstIds ss → staleIn gU.instances u m = false := by
    intro m hm
    rw [staleIn_eq_false_iff]
    intro q hq hqm
    rcases (hI q.1 q.2).mp hq with ⟨-, hqu⟩ | ⟨-, hqn⟩
    · exact hqu
    · exact absurd (hqm ▸ hm) hqn
  constructor
  · intro m v
    rw [mem_clean_services]
    constructor
    · rintro ⟨hmem, hstale⟩
      rcases (hS m v).mp hmem with ⟨h1, h2⟩ | ⟨h1, h2⟩
      · exact ⟨h1, h2⟩
      · have hwu : v ≠ u := hf.1 (m, v) h1
        have : (m, v) ∈ gU.services := (hS m v).mpr (Or.inr ⟨h1, h2⟩)
        have hst : staleIn gU.services u m = true :=
          (staleIn_eq_true_iff _ _ _).mpr ⟨(m, v), this, rfl, hwu⟩
        rw [hst] at hstale
        exact Bool.noConfusion hstale
    · rintro ⟨hm, hv⟩
      exact ⟨(hS m v).mpr (Or.inl ⟨hm, hv⟩), hA1s m hm⟩
  · intro m v
    rw [mem_clean_instances]
    constructor
    · rintro ⟨hmem, hstale⟩
      rcases (hI m v).mp hmem with ⟨h1, h2⟩ | ⟨h1, h2⟩
      · exact ⟨h1, h2⟩
      · have hwu : v ≠ u := hf.2 (m, v) h1
        have : (m, v) ∈ gU.instances := (hI m v).mpr (Or.inr ⟨h1, h2⟩)
        have hst : staleIn gU.instances u m = true :=
          (staleIn_eq_true_iff _ _ _).mpr ⟨(m, v), this, rfl, hwu⟩
        rw [hst] at hstale
        exact Bool.noConfusion hstale
    · rintro ⟨hm, hv⟩
      exact ⟨(hI m v).mpr (Or.inl ⟨hm, hv⟩), hA1i m hm⟩

/-- **C6**: reconciling the unchanged snapshot again under a distinct,
fresh transaction id only refreshes stamps.  After `reconcile ss T1 g =
some g1` (with `T1` not stamped anywhere in `g`), running `reconcile ss
T2 g1` for `T2 ≠ T1` produces exactly `g1` with every node's stamp
replaced by `T2` (`g1.restamp T2`): the upsert pass restamps in place,
the edge pass adds nothing, the prune pass deletes nothing
(`clean_neo4j T2` is the identity on the restamped graph), and the node
name sets are unchanged — no entity is deleted. -/
theorem reconcile_new_id_refreshes (ss : Snapshot) (T1 T2 : String) (g g1 : Graph)
    (hf : FreshStamp T1 g) (h1 : reconcile ss T1 g = some g1) :
    upsertPass g1 ss T2 = some (g1.restamp T2) ∧
    edgePass (g1.restamp T2) ss relTagKey = some (g1.restamp T2) ∧
    clean_neo4j T2 (g1.restamp T2) = g1.restamp T2 ∧
    reconcile ss T2 g1 = some (g1.restamp T2) ∧
    (g1.restamp T2).sNames = g1.sNames ∧ (g1.restamp T2).iNames = g1.iNames := by
  have hcov := reconcile_covers h1
  have hn := reconcile_nodes hf h1
  have hsn : ∀ s ∈ ss, s.name ∈ g1.sNames := by
    intro s hs
    show s.name ∈ g1.services.map Prod.fst
    rw [← alookup_isSome_iff, hcov.1 s hs]
    rfl
  have hin : ∀ s ∈ ss, ∀ i ∈ s.instances, i.id ∈ g1.iNames := by
    intro s hs i hi
    show i.id ∈ g1.instances.map Prod.fst
    rw [← alookup_isSome_iff, hcov.2.1 s hs i hi]
    rfl
  have hreg : ∀ s ∈ ss, ∀ i ∈ s.instances, (i.id, s.name) ∈ g1.regEdges := hcov.2.2.1
  have hallS : ∀ p ∈ g1.services, p.1 ∈ snapSrvNames ss := by
    intro p hp
    exact ((hn.1 p.1 p.2).mp hp).1
  have hallI : ∀ p ∈ g1.instances, p.1 ∈ snapInstIds ss := by
    intro p hp
    exact ((hn.2 p.1 p.2).mp hp).1
  have hup : upsertPass g1 ss T2 = some (g1.restamp T2) := by
    rw [upsertPass_restamp ss g1 T2 hsn hin hreg, Option.some.injEq]
    unfold Graph.restamp
    congr 1
    · refine map_congr_mine (fun p hp => ?_)
      rw [if_pos (hallS p hp)]
    · refine map_congr_mine (fun p hp => ?_)
      rw [if_pos (hallI p hp)]
  have hlk2 : ∀ s ∈ ss, alookup (g1.restamp T2).services s.name = some T2 := by
    intro s hs
    show alookup (g1.services.map (fun p => (p.1, T2))) s.name = some T2
    rw [alookup_restamp, hcov.1 s hs]
    rfl
  have hdep2 : ∀ s ∈ ss, ∀ t, relationshipTag s.tags relTagKey = some t →
      t ∈ (g1.restamp T2).sNames → (s.name, t) ∈ (g1.restamp T2).depEdges := by
    intro s hs t ht htm
    rw [restamp_sNames] at htm
    show (s.name, t) ∈ g1.depEdges
    exact hcov.2.2.2 s hs t ht htm
  have hep := edgePass_id ss (g1.restamp T2) T2 hlk2 hdep2
  have hcl := clean_id (stamped_restamp g1 T2)
  refine ⟨hup, hep, hcl, ?_, restamp_sNames g1 T2, restamp_iNames g1 T2⟩
  simp only [reconcile, update_neo4j, hup, hep, hcl]

/-- Witness for C6: a concrete one-service snapshot reconciled from the
empty graph under `"t1"`, then reconciled unchanged under `"t2"`; the
result is the same graph with every stamp refreshed to `"t2"` and
nothing deleted. -/
theorem reconcile_new_id_refreshes_witness :
    reconcile [⟨"B", [⟨"j"⟩], []⟩] "t2"
        ⟨[("B", "t1")], [("j", "t1")], [("j", "B")], []⟩ =
      some (Graph.restamp ⟨[("B", "t1")], [("j", "t1")], [("j", "B")], []⟩ "t2") :=
  (reconcile_new_id_refreshes [⟨"B", [⟨"j"⟩], []⟩] "t1" "t2" Graph.empty
    ⟨[("B", "t1")], [("j", "t1")], [("j", "B")], []⟩
    (by constructor <;> intro p hp <;> simp [Graph.empty] at hp) rfl).2.2.2.1

/-- **C2**: omitting exactly one entity deletes exactly that entity.  If
`S2` lists exactly the entities of `S1` except the single node `r`, both
transaction ids are fresh and distinct, and the starting graph has no
dangling edges, then after `reconcile S1 T1` (giving `g1`) and
`reconcile S2 T2` (giving `g2`): `r` was present in `g1`; a node is in
`g2` exactly when it is in `g1` and is not `r`; and an edge of `g1` is
deleted by the second reconciliation exactly when it is incident to `r`
— no other node and no other edge is deleted. -/
theorem reconcile_omits_exactly (S1 S2 : Snapshot) (T1 T2 : String)
    (g g1 g2 : Graph) (r : NodeRef)
    (hT : T1 ≠ T2) (hf1 : FreshStamp T1 g) (hc : Graph.Closed g)
    (hom : OmitsExactly S1 S2 r)
    (h1 : reconcile S1 T1 g = some g1) (h2 : reconcile S2 T2 g1 = some g2) :
    g1.hasNode r ∧
    (∀ r' : NodeRef, g2.hasNode r' ↔ (g1.hasNode r' ∧ r' ≠ r)) ∧
    (∀ e : EdgeRef, g1.hasEdge e → (¬ g2.hasEdge e ↔ Incident e r)) := by
  have hc1 : Graph.Closed g1 := reconcile_closed hf1 hc h1
  have hf2 : FreshStamp T2 g1 := stamped_fresh (reconcile_stamped h1) hT
  rcases reconcile_spec S1 T1 g hf1 hc with ⟨g1', hg1', hS1, hI1, hR1, hD1⟩
  have hgg1 : g1 = g1' := by
    rw [h1] at hg1'
    exact Option.some.inj hg1'
  subst hgg1
  rcases reconcile_spec S2 T2 g1 hf2 hc1 with ⟨g2', hg2', hS2, hI2, hR2, hD2⟩
  have hgg2 : g2 = g2' := by
    rw [h2] at hg2'
    exact Option.some.inj hg2'
  subst hgg2
  have hs1n := names_iff_of_pure_entries hS1
  have hi1n := names_iff_of_pure_entries hI1
  have hs2n := names_iff_of_pure_entries hS2
  have hi2n := names_iff_of_pure_entries hI2
  cases r with
  | srv n =>
    obtain ⟨hn1, hsrvIff, hinstIff⟩ := hom
    refine ⟨(hs1n n).mpr hn1, ?_, ?_⟩
    · intro r'
      cases r' with
      | srv m =>
        show m ∈ List.map Prod.fst g2.services ↔
          (m ∈ List.map Prod.fst g1.services ∧ NodeRef.srv m ≠ NodeRef.srv n)
        rw [hs2n m, hs1n m, hsrvIff m]
        simp [NodeRef.srv.injEq]
      | inst m =>
        show m ∈ List.map Prod.fst g2.instances ↔
          (m ∈ List.map Prod.fst g1.instances ∧ NodeRef.inst m ≠ NodeRef.srv n)
        rw [hi2n m, hi1n m, hinstIff m]
        simp
    · intro e he
      cases e with
      | reg i s =>
        have h1e := (hR1 (i, s)).mp he
        have hi1m : i ∈ snapInstIds S1 := h1e.2.1
        have hs1m : s ∈ snapSrvNames S1 := h1e.2.2
        show ¬ (i, s) ∈ g2.regEdges ↔ s = n
        constructor
        · intro hng
          by_contra hsn
          exact hng ((hR2 (i, s)).mpr ⟨Or.inl he,
            (hinstIff i).mpr hi1m, (hsrvIff s).mpr ⟨hs1m, hsn⟩⟩)
        · intro hsn hedge
          exact ((hsrvIff s).mp ((hR2 (i, s)).mp hedge).2.2).2 hsn
      | dep a b =>
        have h1e := (hD1 (a, b)).mp he
        have ha1 : a ∈ snapSrvNames S1 := h1e.2.1
        have hb1 : b ∈ snapSrvNames S1 := h1e.2.2
        show ¬ (a, b) ∈ g2.depEdges ↔ (a = n ∨ b = n)
        constructor
        · intro hng
          by_contra hab
          push_neg at hab
          exact hng ((hD2 (a, b)).mpr ⟨Or.inl he,
            (hsrvIff a).mpr ⟨ha1, hab.1⟩, (hsrvIff b).mpr ⟨hb1, hab.2⟩⟩)
        · intro hab hedge
          have h2e := (hD2 (a, b)).mp hedge
          rcases hab with hab | hab
          · exact ((hsrvIff a).mp h2e.2.1).2 hab
          · exact ((hsrvIff b).mp h2e.2.2).2 hab
  | inst n =>
    obtain ⟨hn1, hinstIff, hsrvIff⟩ := hom
    refine ⟨(hi1n n).mpr hn1, ?_, ?_⟩
    · intro r'
      cases r' with
      | srv m =>
        show m ∈ List.map Prod.fst g2.services ↔
          (m ∈ List.map Prod.fst g1.services ∧ NodeRef.srv m ≠ NodeRef.inst n)
        rw [hs2n m, hs1n m, hsrvIff m]
        simp
      | inst m =>
        show m ∈ List.map Prod.fst g2.instances ↔
          (m ∈ List.map Prod.fst g1.instances ∧ NodeRef.inst m ≠ NodeRef.inst n)
        rw [hi2n m, hi1n m, hinstIff m]
        simp [NodeRef.inst.injEq]
    · intro e he
      cases e with
      | reg i s =>
        have h1e := (hR1 (i, s)).mp he
        have hi1m : i ∈ snapInstIds S1 := h1e.2.1
        have hs1m : s ∈ snapSrvNames S1 := h1e.2.2
        show ¬ (i, s) ∈ g2.regEdges ↔ i = n
        constructor
        · intro hng
          by_contra hin
          exact hng ((hR2 (i, s)).mpr ⟨Or.inl he,
            (hinstIff i).mpr ⟨hi1m, hin⟩, (hsrvIff s).mpr hs1m⟩)
        · intro hin hedge
          exact ((hinstIff i).mp ((hR2 (i, s)).mp hedge).2.1).2 hin
      | dep a b =>
        have h1e := (hD1 (a, b)).mp he
        have hedge2 : (a, b) ∈ g2.depEdges :=
          (hD2 (a, b)).mpr ⟨Or.inl he,
            (hsrvIff a).mpr h1e.2.1, (hsrvIff b).mpr h1e.2.2⟩
        show ¬ (a, b) ∈ g2.depEdges ↔ False
        exact ⟨fun hng => hng hedge2, False.elim⟩

/-- Witness for C2: snapshot `S1 = [A, B(with j)]` reconciled from the
empty graph under `"t1"`, then `S2 = [B(with j)]` (omitting exactly the
service `A`) under `"t2"`: `A` was present after the first run, is gone
after the second, and `B` survives. -/
theorem reconcile_omits_exactly_witness :
    Graph.hasNode ⟨[("A", "t1"), ("B", "t1")], [("j", "t1")], [("j", "B")], []⟩
      (NodeRef.srv "A") ∧
    ¬ Graph.hasNode ⟨[("B", "t2")], [("j", "t2")], [("j", "B")], []⟩
      (NodeRef.srv "A") ∧
    Graph.hasNode ⟨[("B", "t2")], [("j", "t2")], [("j", "B")], []⟩
      (NodeRef.srv "B") := by
  have hom : OmitsExactly [⟨"A", [], []⟩, ⟨"B", [⟨"j"⟩], []⟩]
      [⟨"B", [⟨"j"⟩], []⟩] (NodeRef.srv "A") := by
    refine ⟨by decide, ?_, ?_⟩
    · intro m
      show m ∈ snapSrvNames [⟨"B", [⟨"j"⟩], []⟩] ↔
        (m ∈ snapSrvNames [⟨"A", [], []⟩, ⟨"B", [⟨"j"⟩], []⟩] ∧ m ≠ "A")
      simp only [snapSrvNames, List.map_cons, List.map_nil, List.mem_cons,
        List.not_mem_nil, or_false]
      constructor
      · rintro rfl
        exact ⟨Or.inr rfl, by decide⟩
      · rintro ⟨h | h, hne⟩
        · exact absurd h hne
        · exact h
    · intro m
      exact Iff.rfl
  have hmain := reconcile_omits_exactly
    [⟨"A", [], []⟩, ⟨"B", [⟨"j"⟩], []⟩] [⟨"B", [⟨"j"⟩], []⟩] "t1" "t2"
    Graph.empty
    ⟨[("A", "t1"), ("B", "t1")], [("j", "t1")], [("j", "B")], []⟩
    ⟨[("B", "t2")], [("j", "t2")], [("j", "B")], []⟩
    (NodeRef.srv "A")
    (by decide)
    (by constructor <;> intro p hp <;> simp [Graph.empty] at hp)
    (by refine ⟨?_, ?_, ?_, ?_⟩ <;> intro e he <;> simp [Graph.empty] at he)
    hom rfl rfl
  refine ⟨hmain.1, ?_, ?_⟩
  · intro hA
    exact ((hmain.2.1 (NodeRef.srv "A")).mp hA).2 rfl
  · exact (hmain.2.1 (NodeRef.srv "B")).mpr
      ⟨by simp [Graph.hasNode, Graph.sNames], by decide⟩

/-- Counterexample for C7 as stated: re-registering instance `"i"` under a
new stamp with a different owning service does **not** redirect the
`REGISTERED` edge.  Starting from the empty graph, reconciling
`[A(with i), B]` under `"t1"` and then `[A, B(with i)]` under `"t2"`
leaves `"i"` with **two** outgoing `REGISTERED` edges — to the old owner
`A` and to the new owner `B` — because `connect` only MERGEs the new
relationship and the old owner survives the prune. -/
theorem instance_two_owners_counterexample :
    reconcile [⟨"A", [⟨"i"⟩], []⟩, ⟨"B", [], []⟩] "t1" Graph.empty =
      some ⟨[("A", "t1"), ("B", "t1")], [("i", "t1")], [("i", "A")], []⟩ ∧
    reconcile [⟨"A", [], []⟩, ⟨"B", [⟨"i"⟩], []⟩] "t2"
        ⟨[("A", "t1"), ("B", "t1")], [("i", "t1")], [("i", "A")], []⟩ =
      some ⟨[("A", "t2"), ("B", "t2")], [("i", "t2")], [("i", "A"), ("i", "B")], []⟩ :=
  ⟨rfl, rfl⟩

/-- **C7 (amended)**: re-registering an existing instance under a new
stamp with a different owning service does not redirect the
registered-with edge: the edge pass adds a second `REGISTERED` edge to
the new owner, and the edge to the old owner survives whenever the old
owner is still named in the snapshot (so the instance ends up with
edges to both services); only when every snapshot keeps supplying the
same owner does an instance created by these reconciliations have
exactly one registered-with edge. -/
theorem reregistration_keeps_old_edge (S2 : Snapshot) (T2 : String)
    (g1 g2 : Graph) (s : ServiceRec) (i : InstanceRec) (aOld : String)
    (hf : FreshStamp T2 g1) (hc : Graph.Closed g1)
    (hs : s ∈ S2) (hi : i ∈ s.instances)
    (hold : (i.id, aOld) ∈ g1.regEdges) (haOld : aOld ∈ snapSrvNames S2)
    (h2 : reconcile S2 T2 g1 = some g2) :
    (i.id, aOld) ∈ g2.regEdges ∧ (i.id, s.name) ∈ g2.regEdges := by
  rcases reconcile_spec S2 T2 g1 hf hc with ⟨g2', hg2', -, -, hR2, -⟩
  have hgg : g2 = g2' := by
    rw [h2] at hg2'
    exact Option.some.inj hg2'
  subst hgg
  have hiid : i.id ∈ snapInstIds S2 := (mem_snapInstIds S2 i.id).mpr ⟨s, hs, i, hi, rfl⟩
  constructor
  · exact (hR2 (i.id, aOld)).mpr ⟨Or.inl hold, hiid, haOld⟩
  · exact (hR2 (i.id, s.name)).mpr
      ⟨Or.inr ((mem_regPairs S2 (i.id, s.name)).mpr ⟨s, hs, i, hi, rfl⟩),
        hiid, (mem_snapSrvNames S2 s.name).mpr ⟨s, hs, rfl⟩⟩

/-- Witness for the amended C7: the concrete two-owner scenario of the
counterexample, through the theorem. -/
theorem reregistration_keeps_old_edge_witness :
    ("i", "A") ∈ (⟨[("A", "t2"), ("B", "t2")], [("i", "t2")],
      [("i", "A"), ("i", "B")], []⟩ : Graph).regEdges ∧
    ("i", "B") ∈ (⟨[("A", "t2"), ("B", "t2")], [("i", "t2")],
      [("i", "A"), ("i", "B")], []⟩ : Graph).regEdges :=
  reregistration_keeps_old_edge [⟨"A", [], []⟩, ⟨"B", [⟨"i"⟩], []⟩] "t2"
    ⟨[("A", "t1"), ("B", "t1")], [("i", "t1")], [("i", "A")], []⟩
    ⟨[("A", "t2"), ("B", "t2")], [("i", "t2")], [("i", "A"), ("i", "B")], []⟩
    ⟨"B", [⟨"i"⟩], []⟩ ⟨"i"⟩ "A"
    (by constructor <;> decide)
    (by refine ⟨?_, ?_, ?_, ?_⟩ <;> decide)
    (by decide) (by decide) (by decide) (by decide) rfl

/-- **C8**: a dependency tag naming a service with no `ServiceEntity` in
the graph produces no edge and no error.  `connect_service_rel_to_service`
returns the graph unchanged (logged and skipped, no exception), and the
whole edge pass still completes over any snapshot whose source services
exist, creating no `DEP_ON` edge towards the missing target. -/
theorem missing_dep_target_skipped (g : Graph) (s : ServiceRec) (t : String)
    (hs : s.name ∈ g.sNames)
    (ht : relationshipTag s.tags relTagKey = some t)
    (htn : t ∉ g.sNames) :
    connect_service_rel_to_service g s relTagKey = some g ∧
    (∀ ss : Snapshot, s ∈ ss → (∀ s' ∈ ss, s'.name ∈ g.sNames) →
      ∃ g', edgePass g ss relTagKey = some g' ∧
        ∀ a, (a, t) ∉ g.depEdges → (a, t) ∉ g'.depEdges) := by
  have hlk : (alookup g.services s.name).isSome = true := by
    rw [alookup_isSome_iff]
    exact hs
  constructor
  · cases hsv : alookup g.services s.name with
    | none => rw [hsv] at hlk ; simp at hlk
    | some w =>
      have htr : alookup g.services t = none := (alookup_eq_none_iff _ _).mpr htn
      simp only [connect_service_rel_to_service, hsv, ht, htr]
  · intro ss hsss hnames
    rcases edgePass_spec ss g relTagKey hnames with ⟨g', hg', -, -, -, hdep⟩
    refine ⟨g', hg', ?_⟩
    intro a ha hmem
    rcases (hdep (a, t)).mp hmem with he | ⟨s', -, -, -, htm⟩
    · exact ha he
    · exact htn htm

/-- Witness for C8: a one-service graph whose service carries a
relationship tag to the absent service `"Z"`; the edge function is a
no-op returning the unchanged graph. -/
theorem missing_dep_target_skipped_witness :
    connect_service_rel_to_service ⟨[("A", "t0")], [], [], []⟩
      ⟨"A", [], [⟨relTagKey, "Z"⟩]⟩ relTagKey =
      some ⟨[("A", "t0")], [], [], []⟩ :=
  (missing_dep_target_skipped ⟨[("A", "t0")], [], [], []⟩
    ⟨"A", [], [⟨relTagKey, "Z"⟩]⟩ "Z" (by decide) rfl (by decide)).1

/-- **C10**: when the designated relationship-tag key occurs more than
once in a service's tag list, the tag scan resolves the dependency
target from the value of the **last** matching tag in list order — any
earlier matching tags (anywhere in the prefix) are overwritten and
produce no edge. -/
theorem relationshipTag_last_wins (pre post : List Tag) (t : Tag) (k : String)
    (hk : t.key = k) (hpost : ∀ u ∈ post, u.key ≠ k) :
    relationshipTag (pre ++ t :: post) k = some t.value := by
  have haux : ∀ (l : List Tag) (acc : Option String), (∀ u ∈ l, u.key ≠ k) →
      l.foldl (fun acc t => if t.key = k then some t.value else acc) acc = acc := by
    intro l
    induction l with
    | nil => intro acc _ ; rfl
    | cons u rest ih =>
      intro acc hl
      rw [List.foldl_cons, if_neg (hl u (List.mem_cons_self u rest))]
      exact ih acc (fun u' hu' => hl u' (List.mem_cons_of_mem u hu'))
  unfold relationshipTag
  rw [List.foldl_append, List.foldl_cons, if_pos hk]
  exact haux post _ hpost

/-- Witness for C10: two tags with the designated key; the scan returns
the second (last) value. -/
theorem relationshipTag_last_wins_witness :
    relationshipTag [⟨relTagKey, "v1"⟩, ⟨relTagKey, "v2"⟩] relTagKey = some "v2" :=
  relationshipTag_last_wins [⟨relTagKey, "v1"⟩] [] ⟨relTagKey, "v2"⟩ relTagKey rfl
    (fun u hu => absurd hu (List.not_mem_nil u))
